import Mathlib

/-!
# A verification model of the `unicycle` `Unordered` futures container

This file gives a shallow embedding of `src/src/lib.rs` (`Unordered`,
`push`, `poll_next`) and of the supporting components that the crate's
submodules provide (`pin_slab`, `bit_set`, `wake_set`, `waker`), together
with theorems settling the specification's claims about the engine.

The engine itself (`Unordered::push`, `Unordered::poll_next`,
`Unordered::new`, `is_empty`) is translated directly from `lib.rs`.
The submodules `pin_slab.rs`, `bit_set.rs`, `wake_set.rs` and `waker.rs`
are not part of the sources; their operations are modelled from the
specification's descriptions (§4.1 fixed-slot store, §4.2 bit set,
§4.3 wake-tracking buffer, §4.4 shared waker cell), as noted on each
definition.

Tasks (futures) are modelled as deterministic step machines: a task
carries an optional fuel counter and an output value.  A task with fuel
`some 0` completes on its next poll, returning its output; a task with
fuel `some (n+1)` returns pending, invokes its wake handle (setting its
index in the currently shared wake set), and continues with fuel
`some n`; a task with fuel `none` never completes but invokes its wake
handle on every poll.  This family realises "advance(wake-handle) ->
completed(output) | not-yet-ready" (§6) with every finite-fuel task
eventually completing.
-/

namespace Unicycle

/-! ## Bit set (modelled from the spec, §4.2)

Modelled from the spec: `bit_set.rs` is not among the sources.  A bit set
is a growable vector of bits; `set i` flips bit `i` on (a no-op beyond
capacity — the engine only ever sets bits below the capacity it
guaranteed in §4.3 step 2), `reserve n` grows capacity to at least `n`,
and `drain` yields all currently set indices while clearing them. -/

/-- Test bit `i` of a bit vector; `false` beyond the end. -/
def testBit : List Bool → Nat → Bool
  | [], _ => false
  | b :: _, 0 => b
  | _ :: bs, n + 1 => testBit bs n

/-- Set bit `i` of a bit vector to `true`; no-op beyond the end. -/
def setBit : List Bool → Nat → List Bool
  | [], _ => []
  | _ :: bs, 0 => true :: bs
  | b :: bs, n + 1 => b :: setBit bs n

/-- A wake-tracking buffer: a bit set (§4.3).  The Exclusive/Shared flag
is represented by which field of the engine state holds the buffer
(`active` is the Shared buffer, `alternate` the Exclusive one). -/
structure WakeSet where
  bits : List Bool
  deriving Repr, DecidableEq

namespace WakeSet

/-- Capacity of the buffer: the number of bits it can store. -/
def capacity (w : WakeSet) : Nat := w.bits.length

/-- Concurrency-safe single-bit insertion (§4.2 `set`). -/
def set (w : WakeSet) (i : Nat) : WakeSet := ⟨setBit w.bits i⟩

/-- Test a single bit (§4.2 `test`). -/
def test (w : WakeSet) (i : Nat) : Bool := testBit w.bits i

/-- Owner-only growth to capacity at least `n` (§4.2 `reserve`). -/
def reserve (w : WakeSet) (n : Nat) : WakeSet :=
  ⟨w.bits ++ List.replicate (n - w.bits.length) false⟩

/-- The indices currently set, in ascending order: the sequence produced
by `drain` (§4.2). -/
def drainList (w : WakeSet) : List Nat :=
  (List.range w.bits.length).filter (fun i => testBit w.bits i)

/-- The buffer after draining: all bits cleared, capacity kept. -/
def cleared (w : WakeSet) : WakeSet := ⟨List.replicate w.bits.length false⟩

/-- The empty buffer (`WakeSet::new`). -/
def new : WakeSet := ⟨[]⟩

end WakeSet

/-! ## Tasks and the fixed-slot store (modelled from the spec, §4.1)

Modelled from the spec: `pin_slab.rs` is not among the sources.  The
store owns all slots, indexed by integers; `insert` places the task in
the lowest free slot (reusing indices freed by `remove`, "identified by
an integer index reused after removal", §3); `get` is `none` for an
unoccupied slot; `remove` frees a slot. -/

/-- A task: an optional fuel counter and an output value.  `fuel = some n`
completes after `n` pending advances; `fuel = none` never completes. -/
structure Task where
  fuel : Option Nat
  out : Nat
  deriving Repr, DecidableEq

/-- The fixed-slot store: slot `i` holds `some t` when occupied. -/
abbrev Slab := List (Option Task)

/-- `get(index)`: the task at slot `i`, `none` if unoccupied (§4.1). -/
def slabGet : Slab → Nat → Option Task
  | [], _ => none
  | x :: _, 0 => x
  | _ :: xs, n + 1 => slabGet xs n

/-- Overwrite slot `i`; no-op beyond the end (only ever used on occupied
slots, which lie below the length). -/
def slabSet : Slab → Nat → Option Task → Slab
  | [], _, _ => []
  | _ :: xs, 0, v => v :: xs
  | x :: xs, n + 1, v => x :: slabSet xs n v

/-- `insert(task) -> index`: store the task in the lowest free slot,
growing the store if none is free (§4.1). -/
def slabInsert : Slab → Task → Slab × Nat
  | [], t => ([some t], 0)
  | none :: xs, t => (some t :: xs, 0)
  | some u :: xs, t =>
    let r := slabInsert xs t
    (some u :: r.1, r.2 + 1)

/-- `remove(index)`: free slot `i` (§4.1). -/
def slabRemove (s : Slab) (i : Nat) : Slab := slabSet s i none

/-- `is_empty()`: no slot is occupied (§4.1). -/
def slabIsEmpty (s : Slab) : Bool := s.all Option.isNone

/-- The outputs of all occupied slots, in slot order (model bookkeeping
used to state conservation of outputs). -/
def slabOuts (s : Slab) : List Nat := s.filterMap (fun o => o.map Task.out)

/-! ## The engine state (`Unordered` in `lib.rs`) -/

/-- The state of `Unordered<F>` (lib.rs lines 93-114): the pollable list
of freshly pushed indices, the slab of tasks, the largest index inserted
so far, the shared waker (modelled by the identity of the stored waker
and, as spec §8's "internal replacement counter", the number of
replacements), the currently shared (active) wake set, the exclusively
held alternate wake set, and the FIFO queue of pending results. -/
structure Unordered where
  pollable : List Nat
  slab : Slab
  max_index : Nat
  wakerId : Option Nat
  wakerSwaps : Nat
  active : WakeSet
  alternate : WakeSet
  results : List Nat
  deriving Repr, DecidableEq

namespace Unordered

/-- `Unordered::new` (lib.rs lines 126-138): everything empty; the
alternate wake set starts out locked for writing (Exclusive). -/
def new : Unordered :=
  { pollable := []
    slab := []
    max_index := 0
    wakerId := none
    wakerSwaps := 0
    active := WakeSet.new
    alternate := WakeSet.new
    results := [] }

/-- `Unordered::is_empty` (lib.rs lines 141-143). -/
def is_empty (s : Unordered) : Bool := slabIsEmpty s.slab

end Unordered

/-- The index assigned to a pushed task (`slab.insert`, lib.rs line 150). -/
def pushIdx (s : Unordered) (t : Task) : Nat := (slabInsert s.slab t).2

/-- `Unordered::push` (lib.rs lines 149-153): insert the task into the
slab, raise `max_index`, and record the new index in `pollable`. -/
def push (s : Unordered) (t : Task) : Unordered :=
  let r := slabInsert s.slab t
  { s with
    slab := r.1
    max_index := Nat.max s.max_index r.2
    pollable := s.pollable ++ [r.2] }

/-- The result of one `poll_next` call: `Poll::Ready(Some(v))`,
`Poll::Ready(None)` (end of stream), or `Poll::Pending`. -/
inductive PollRes where
  | readySome (v : Nat)
  | readyNone
  | pending
  deriving Repr, DecidableEq

/-- Mutable state threaded through the per-cycle loop over the work list
(lib.rs lines 242-263): the slab, the result queue, the currently shared
wake set (which wake handles invoked during an advance target), and the
list of indices actually advanced (instrumentation recording which
futures got polled). -/
structure CycleSt where
  slab : Slab
  results : List Nat
  active : WakeSet
  advanced : List Nat
  deriving Repr, DecidableEq

/-- Advance the task `t` found at slot `i` (lib.rs lines 254-262).  A
completed advance (`fuel = some 0`) enqueues the output at the back of
the result queue and removes the slot; a pending advance invokes the
wake handle, which sets the task's bit in the currently shared wake set
(§4.3). -/
def advanceTask (c : CycleSt) (i : Nat) (t : Task) : CycleSt :=
  match t.fuel with
  | some 0 =>
    { c with
      slab := slabRemove c.slab i
      results := c.results ++ [t.out]
      advanced := c.advanced ++ [i] }
  | some (n + 1) =>
    { c with
      slab := slabSet c.slab i (some { t with fuel := some n })
      active := c.active.set i
      advanced := c.advanced ++ [i] }
  | none =>
    { c with
      active := c.active.set i
      advanced := c.advanced ++ [i] }

/-- Process one index of the work list (lib.rs lines 242-263): look the
slot up; skip silently if unoccupied; otherwise advance the task. -/
def stepIndex (c : CycleSt) (i : Nat) : CycleSt :=
  match slabGet c.slab i with
  | none => c
  | some t => advanceTask c i t

/-- Run the per-cycle loop over the whole work list. -/
def runWork (c : CycleSt) (l : List Nat) : CycleSt := l.foldl stepIndex c

/-- The outcome of one `poll_next` call: the result, the successor
state, and instrumentation — the work list of the cycle, the indices
advanced, and the capacity of the buffer drained this cycle (`none` when
the call returned before reaching the cycle). -/
structure PollOut where
  res : PollRes
  state : Unordered
  worklist : List Nat
  advanced : List Nat
  drainedCap : Option Nat
  deriving Repr, DecidableEq

/-- Step 3 of `poll_next` (lib.rs lines 202-204): replace the stored
shared waker iff the caller's waker differs by identity
(`!shared.waker.is_woken_by(cx.waker())`); bump the replacement counter
when replacing. -/
def swapWaker (s : Unordered) (w : Nat) : Unordered :=
  if s.wakerId = some w then s
  else { s with wakerId := some w, wakerSwaps := s.wakerSwaps + 1 }

/-- The alternate wake set after the pre-publication growth check
(lib.rs lines 209-214): grown while still Exclusive whenever its
capacity does not exceed `max_index`. -/
def grownAlternate (s : Unordered) : WakeSet :=
  if s.alternate.capacity ≤ s.max_index then
    s.alternate.reserve (s.max_index + 1)
  else s.alternate

/-- The work list of a poll cycle (lib.rs line 240): the pollable
indices, popped off the back of the vector (hence in reverse push
order), followed by the indices drained from the reclaimed wake set. -/
def workOf (s : Unordered) : List Nat :=
  s.pollable.reverse ++ s.active.drainList

/-- `Unordered::poll_next` (lib.rs lines 177-272).
1. A queued result is returned first (lines 189-192).
2. An empty slab ends the stream (lines 194-197).
3. The shared waker is replaced iff the caller's differs (lines 202-204).
4. The alternate wake set is grown while still Exclusive if its capacity
   does not exceed `max_index`, then published as the new active set,
   and the previously active set is reclaimed and drained
   (lines 206-238).
5. The work list is the pollable indices (popped, hence in reverse push
   order) followed by the drained indices (line 240); each is processed
   by `stepIndex` (lines 242-263), with wake handles invoked during an
   advance targeting the freshly published active set.
6. A produced result is returned, else `Pending` (lines 266-271). -/
def pollNext (s : Unordered) (w : Nat) : PollOut :=
  match s.results with
  | v :: rest =>
    { res := .readySome v
      state := { s with results := rest }
      worklist := []
      advanced := []
      drainedCap := none }
  | [] =>
    if slabIsEmpty s.slab then
      { res := .readyNone, state := s, worklist := [], advanced := [],
        drainedCap := none }
    else
      let s1 := swapWaker s w
      let wakeLast := s1.active
      let work := workOf s1
      let c1 := runWork ⟨s1.slab, [], grownAlternate s1, []⟩ work
      let s2 :=
        { s1 with
          pollable := []
          slab := c1.slab
          results := c1.results
          active := c1.active
          alternate := wakeLast.cleared }
      match c1.results with
      | v :: rest =>
        { res := .readySome v
          state := { s2 with results := rest }
          worklist := work
          advanced := c1.advanced
          drainedCap := some wakeLast.capacity }
      | [] =>
        { res := .pending
          state := s2
          worklist := work
          advanced := c1.advanced
          drainedCap := some wakeLast.capacity }

/-! ## Driving the engine: sequences of pushes and polls

The temporal claims quantify over finite sequences of pushes interleaved
with polls.  A driver runs such a sequence from the fresh engine,
assigning each pushed task a unique token as its output (the number of
pushes so far) and recording every delivered output and every poll
result. -/

/-- One external operation: push a task with the given fuel (its output
is the driver's next token), or poll with a waker of the given identity. -/
inductive Op where
  | push (fuel : Option Nat)
  | poll (w : Nat)
  deriving Repr, DecidableEq

/-- Driver state: the engine, the next unused token, the outputs
delivered by polls so far (in delivery order), and the results of all
polls so far. -/
structure Driver where
  eng : Unordered
  nextToken : Nat
  delivered : List Nat
  log : List PollRes
  deriving Repr, DecidableEq

/-- The initial driver: a fresh engine. -/
def Driver.init : Driver := ⟨Unordered.new, 0, [], []⟩

/-- Execute one operation. -/
def stepOp (d : Driver) : Op → Driver
  | .push f =>
    { d with
      eng := push d.eng ⟨f, d.nextToken⟩
      nextToken := d.nextToken + 1 }
  | .poll w =>
    let o := pollNext d.eng w
    { d with
      eng := o.state
      delivered :=
        match o.res with
        | .readySome v => d.delivered ++ [v]
        | _ => d.delivered
      log := d.log ++ [o.res] }

/-- Run a sequence of operations from a given driver state. -/
def runFrom (d : Driver) (ops : List Op) : Driver := ops.foldl stepOp d

/-- Run a sequence of operations from the fresh engine. -/
def runOps (ops : List Op) : Driver := runFrom Driver.init ops

/-- Whether an operation is a push. -/
def isPush : Op → Bool
  | .push _ => true
  | .poll _ => false

/-- The token assigned to the push at position `p` of `ops`: the number
of pushes strictly before it. -/
def tokenAt (ops : List Op) (p : Nat) : Nat := (ops.take p).countP isPush

/-! ## Lemmas about the bit set -/

theorem length_setBit (bs : List Bool) (i : Nat) :
    (setBit bs i).length = bs.length := by
  induction bs generalizing i with
  | nil => rfl
  | cons b bs ih =>
    cases i with
    | zero => rfl
    | succ n => simp [setBit, ih]

theorem testBit_lt_length {bs : List Bool} {i : Nat}
    (h : testBit bs i = true) : i < bs.length := by
  induction bs generalizing i with
  | nil => simp [testBit] at h
  | cons b bs ih =>
    cases i with
    | zero => simp
    | succ n =>
      simp only [testBit] at h
      simpa using ih h

theorem testBit_setBit_self {bs : List Bool} {i : Nat} (h : i < bs.length) :
    testBit (setBit bs i) i = true := by
  induction bs generalizing i with
  | nil => simp at h
  | cons b bs ih =>
    cases i with
    | zero => rfl
    | succ n =>
      simp only [setBit, testBit]
      exact ih (by simpa using h)

theorem testBit_setBit_mono {bs : List Bool} {i j : Nat}
    (h : testBit bs j = true) : testBit (setBit bs i) j = true := by
  induction bs generalizing i j with
  | nil => simp [testBit] at h
  | cons b bs ih =>
    cases i with
    | zero =>
      cases j with
      | zero => rfl
      | succ m => exact h
    | succ n =>
      cases j with
      | zero => exact h
      | succ m => exact ih h

theorem testBit_append_replicate_false (bs : List Bool) (k i : Nat) :
    testBit (bs ++ List.replicate k false) i = testBit bs i := by
  induction bs generalizing i with
  | nil =>
    simp only [List.nil_append]
    induction k generalizing i with
    | zero => rfl
    | succ m ih =>
      cases i with
      | zero => rfl
      | succ n => exact ih n
  | cons b bs ih =>
    cases i with
    | zero => rfl
    | succ n => exact ih n

theorem testBit_replicate_false (k i : Nat) :
    testBit (List.replicate k false) i = false := by
  induction k generalizing i with
  | zero => rfl
  | succ m ih =>
    cases i with
    | zero => rfl
    | succ n => exact ih n

namespace WakeSet

theorem capacity_set (w : WakeSet) (i : Nat) :
    (w.set i).capacity = w.capacity := length_setBit w.bits i

theorem test_set_self {w : WakeSet} {i : Nat} (h : i < w.capacity) :
    (w.set i).test i = true := testBit_setBit_self h

theorem test_set_mono {w : WakeSet} {i j : Nat} (h : w.test j = true) :
    (w.set i).test j = true := testBit_setBit_mono h

theorem capacity_reserve (w : WakeSet) (n : Nat) :
    (w.reserve n).capacity = Nat.max w.capacity n := by
  simp only [reserve, capacity, List.length_append, List.length_replicate]
  have hm : Nat.max w.bits.length n = max w.bits.length n := rfl
  rw [hm]
  rcases Nat.le_total w.bits.length n with h | h
  · rw [max_eq_right h]; omega
  · rw [max_eq_left h]; omega

theorem test_reserve (w : WakeSet) (n i : Nat) :
    (w.reserve n).test i = w.test i :=
  testBit_append_replicate_false w.bits _ i

theorem test_cleared (w : WakeSet) (i : Nat) :
    w.cleared.test i = false := testBit_replicate_false _ i

theorem mem_drainList {w : WakeSet} {i : Nat} :
    i ∈ w.drainList ↔ w.test i = true := by
  unfold drainList
  constructor
  · intro h
    exact (List.mem_filter.mp h).2
  · intro h
    exact List.mem_filter.mpr ⟨List.mem_range.mpr (testBit_lt_length h), h⟩

end WakeSet

/-! ## Lemmas about the slab -/

theorem slabGet_lt_length {s : Slab} {i : Nat} {t : Task}
    (h : slabGet s i = some t) : i < s.length := by
  induction s generalizing i with
  | nil => simp [slabGet] at h
  | cons x xs ih =>
    cases i with
    | zero => simp
    | succ n =>
      simp only [slabGet] at h
      simpa using ih h

theorem length_slabSet (s : Slab) (i : Nat) (v : Option Task) :
    (slabSet s i v).length = s.length := by
  induction s generalizing i with
  | nil => rfl
  | cons x xs ih =>
    cases i with
    | zero => rfl
    | succ n => simp [slabSet, ih]

theorem slabGet_slabSet_self {s : Slab} {i : Nat} (v : Option Task)
    (h : i < s.length) : slabGet (slabSet s i v) i = v := by
  induction s generalizing i with
  | nil => simp at h
  | cons x xs ih =>
    cases i with
    | zero => rfl
    | succ n =>
      simp only [slabSet, slabGet]
      exact ih (by simpa using h)

theorem slabGet_slabSet_other {s : Slab} {i j : Nat} (v : Option Task)
    (h : j ≠ i) : slabGet (slabSet s i v) j = slabGet s j := by
  induction s generalizing i j with
  | nil => rfl
  | cons x xs ih =>
    cases i with
    | zero =>
      cases j with
      | zero => exact absurd rfl h
      | succ m => rfl
    | succ n =>
      cases j with
      | zero => rfl
      | succ m => exact ih (fun hc => h (by simp [hc]))

theorem slabGet_slabInsert_self (s : Slab) (t : Task) :
    slabGet (slabInsert s t).1 (slabInsert s t).2 = some t := by
  induction s with
  | nil => rfl
  | cons x xs ih =>
    cases x with
    | none => rfl
    | some u => simpa [slabInsert, slabGet] using ih

theorem slabGet_slabInsert_other (s : Slab) (t : Task) {j : Nat}
    (h : j ≠ (slabInsert s t).2) :
    slabGet (slabInsert s t).1 j = slabGet s j := by
  induction s generalizing j with
  | nil =>
    cases j with
    | zero => exact absurd rfl h
    | succ m => rfl
  | cons x xs ih =>
    cases x with
    | none =>
      cases j with
      | zero => exact absurd rfl h
      | succ m => rfl
    | some u =>
      cases j with
      | zero => rfl
      | succ m =>
        simp only [slabInsert, slabGet]
        exact ih (fun hc => h (by simp [slabInsert, hc]))

theorem slabGet_free_slabInsert (s : Slab) (t : Task) :
    slabGet s (slabInsert s t).2 = none := by
  induction s with
  | nil => rfl
  | cons x xs ih =>
    cases x with
    | none => rfl
    | some u => simpa [slabInsert, slabGet] using ih

theorem slabInsert_least {s : Slab} {i : Nat} (t : Task)
    (hocc : ∀ j, j < i → slabGet s j ≠ none) (hfree : slabGet s i = none) :
    (slabInsert s t).2 = i := by
  induction s generalizing i with
  | nil =>
    cases i with
    | zero => rfl
    | succ n => exact absurd rfl (hocc 0 (Nat.succ_pos n))
  | cons x xs ih =>
    cases x with
    | none =>
      cases i with
      | zero => rfl
      | succ n => exact absurd rfl (hocc 0 (Nat.succ_pos n))
    | some u =>
      cases i with
      | zero => simp [slabGet] at hfree
      | succ n =>
        simp only [slabInsert]
        have := ih (i := n)
          (fun j hj => hocc (j + 1) (by omega)) hfree
        omega

theorem slabIsEmpty_iff {s : Slab} :
    slabIsEmpty s = true ↔ ∀ i, slabGet s i = none := by
  induction s with
  | nil => simp [slabIsEmpty, slabGet]
  | cons x xs ih =>
    simp only [slabIsEmpty, List.all_cons, Bool.and_eq_true] at *
    constructor
    · rintro ⟨hx, hxs⟩ i
      cases i with
      | zero => simpa [slabGet, Option.isNone_iff_eq_none] using hx
      | succ n => exact ih.mp hxs n
    · intro h
      refine ⟨?_, ih.mpr (fun i => h (i + 1))⟩
      simpa [slabGet, Option.isNone_iff_eq_none] using h 0

theorem slabIsEmpty_false_of_occupied {s : Slab} {i : Nat} {t : Task}
    (h : slabGet s i = some t) : slabIsEmpty s = false := by
  by_contra hc
  have : slabIsEmpty s = true := by
    cases he : slabIsEmpty s with
    | false => exact absurd he hc
    | true => rfl
  have := slabIsEmpty_iff.mp this i
  rw [h] at this
  exact Option.noConfusion this

theorem slabOuts_cons_some (u : Task) (xs : Slab) :
    slabOuts (some u :: xs) = u.out :: slabOuts xs := rfl

theorem slabOuts_cons_none (xs : Slab) :
    slabOuts (none :: xs) = slabOuts xs := rfl

theorem slabOuts_eq_nil_of_empty {s : Slab} (h : slabIsEmpty s = true) :
    slabOuts s = [] := by
  induction s with
  | nil => rfl
  | cons x xs ih =>
    simp only [slabIsEmpty, List.all_cons, Bool.and_eq_true] at h
    cases x with
    | none => simpa [slabOuts] using ih h.2
    | some u => simp at h

theorem slabOuts_slabInsert_perm (s : Slab) (t : Task) :
    (slabOuts (slabInsert s t).1).Perm (slabOuts s ++ [t.out]) := by
  induction s with
  | nil => simp [slabInsert, slabOuts]
  | cons x xs ih =>
    cases x with
    | none =>
      simp only [slabInsert, slabOuts_cons_some, slabOuts_cons_none]
      exact (List.perm_append_singleton _ _).symm
    | some u =>
      simp only [slabInsert, slabOuts_cons_some, List.cons_append]
      exact (ih.cons u.out)

theorem slabOuts_slabSet_same_out {s : Slab} {i : Nat} {t : Task}
    (t' : Task) (h : slabGet s i = some t) (hout : t'.out = t.out) :
    slabOuts (slabSet s i (some t')) = slabOuts s := by
  induction s generalizing i with
  | nil => rfl
  | cons x xs ih =>
    cases i with
    | zero =>
      simp only [slabGet] at h
      subst h
      simp [slabSet, slabOuts, hout]
    | succ n =>
      simp only [slabGet] at h
      cases x with
      | none => simpa [slabSet, slabOuts] using ih h
      | some u => simpa [slabSet, slabOuts] using ih h

theorem slabOuts_slabRemove_perm {s : Slab} {i : Nat} {t : Task}
    (h : slabGet s i = some t) :
    (slabOuts s).Perm (t.out :: slabOuts (slabRemove s i)) := by
  induction s generalizing i with
  | nil => simp [slabGet] at h
  | cons x xs ih =>
    cases i with
    | zero =>
      simp only [slabGet] at h
      subst h
      simp [slabRemove, slabSet, slabOuts]
    | succ n =>
      simp only [slabGet] at h
      cases x with
      | none =>
        simpa [slabRemove, slabSet, slabOuts] using ih h
      | some u =>
        simp only [slabRemove, slabSet, slabOuts_cons_some]
        exact ((ih h).cons u.out).trans (List.Perm.swap _ _ _)

/-! ## Lemmas about the per-cycle loop -/

theorem advanceTask_fuel_zero {t : Task} (c : CycleSt) (i : Nat)
    (hf : t.fuel = some 0) :
    advanceTask c i t =
      { c with
        slab := slabRemove c.slab i
        results := c.results ++ [t.out]
        advanced := c.advanced ++ [i] } := by
  unfold advanceTask
  rw [hf]

theorem advanceTask_fuel_succ {t : Task} {n : Nat} (c : CycleSt) (i : Nat)
    (hf : t.fuel = some (n + 1)) :
    advanceTask c i t =
      { c with
        slab := slabSet c.slab i (some { t with fuel := some n })
        active := c.active.set i
        advanced := c.advanced ++ [i] } := by
  unfold advanceTask
  rw [hf]

theorem advanceTask_fuel_none {t : Task} (c : CycleSt) (i : Nat)
    (hf : t.fuel = none) :
    advanceTask c i t =
      { c with
        active := c.active.set i
        advanced := c.advanced ++ [i] } := by
  unfold advanceTask
  rw [hf]

theorem stepIndex_of_unoccupied {c : CycleSt} {i : Nat}
    (h : slabGet c.slab i = none) : stepIndex c i = c := by
  simp [stepIndex, h]

theorem stepIndex_of_occupied {c : CycleSt} {i : Nat} {t : Task}
    (h : slabGet c.slab i = some t) : stepIndex c i = advanceTask c i t := by
  simp [stepIndex, h]

theorem length_slab_stepIndex (c : CycleSt) (i : Nat) :
    (stepIndex c i).slab.length = c.slab.length := by
  cases hg : slabGet c.slab i with
  | none => rw [stepIndex_of_unoccupied hg]
  | some t =>
    rw [stepIndex_of_occupied hg]
    cases hf : t.fuel with
    | none => rw [advanceTask_fuel_none c i hf]
    | some n =>
      cases n with
      | zero =>
        rw [advanceTask_fuel_zero c i hf]
        exact length_slabSet _ _ _
      | succ m =>
        rw [advanceTask_fuel_succ c i hf]
        exact length_slabSet _ _ _

theorem slabGet_stepIndex_other {c : CycleSt} {i j : Nat} (h : j ≠ i) :
    slabGet (stepIndex c i).slab j = slabGet c.slab j := by
  cases hg : slabGet c.slab i with
  | none => rw [stepIndex_of_unoccupied hg]
  | some t =>
    rw [stepIndex_of_occupied hg]
    cases hf : t.fuel with
    | none => rw [advanceTask_fuel_none c i hf]
    | some n =>
      cases n with
      | zero =>
        rw [advanceTask_fuel_zero c i hf]
        exact slabGet_slabSet_other _ h
      | succ m =>
        rw [advanceTask_fuel_succ c i hf]
        exact slabGet_slabSet_other _ h

theorem slabGet_stepIndex_none {c : CycleSt} {i j : Nat}
    (h : slabGet c.slab j = none) :
    slabGet (stepIndex c i).slab j = none := by
  by_cases hij : j = i
  · subst hij
    rw [stepIndex_of_unoccupied h]
    exact h
  · rw [slabGet_stepIndex_other hij]
    exact h

theorem capacity_active_stepIndex (c : CycleSt) (i : Nat) :
    (stepIndex c i).active.capacity = c.active.capacity := by
  cases hg : slabGet c.slab i with
  | none => rw [stepIndex_of_unoccupied hg]
  | some t =>
    rw [stepIndex_of_occupied hg]
    cases hf : t.fuel with
    | none =>
      rw [advanceTask_fuel_none c i hf]
      exact WakeSet.capacity_set _ _
    | some n =>
      cases n with
      | zero => rw [advanceTask_fuel_zero c i hf]
      | succ m =>
        rw [advanceTask_fuel_succ c i hf]
        exact WakeSet.capacity_set _ _

theorem test_active_stepIndex_mono {c : CycleSt} {i j : Nat}
    (h : c.active.test j = true) : (stepIndex c i).active.test j = true := by
  cases hg : slabGet c.slab i with
  | none => rw [stepIndex_of_unoccupied hg]; exact h
  | some t =>
    rw [stepIndex_of_occupied hg]
    cases hf : t.fuel with
    | none =>
      rw [advanceTask_fuel_none c i hf]
      exact WakeSet.test_set_mono h
    | some n =>
      cases n with
      | zero => rw [advanceTask_fuel_zero c i hf]; exact h
      | succ m =>
        rw [advanceTask_fuel_succ c i hf]
        exact WakeSet.test_set_mono h

theorem mem_advanced_stepIndex_mono {c : CycleSt} {i j : Nat}
    (h : j ∈ c.advanced) : j ∈ (stepIndex c i).advanced := by
  cases hg : slabGet c.slab i with
  | none => rw [stepIndex_of_unoccupied hg]; exact h
  | some t =>
    rw [stepIndex_of_occupied hg]
    cases hf : t.fuel with
    | none =>
      rw [advanceTask_fuel_none c i hf]
      exact List.mem_append_left _ h
    | some n =>
      cases n with
      | zero =>
        rw [advanceTask_fuel_zero c i hf]
        exact List.mem_append_left _ h
      | succ m =>
        rw [advanceTask_fuel_succ c i hf]
        exact List.mem_append_left _ h

theorem runWork_nil (c : CycleSt) : runWork c [] = c := rfl

theorem runWork_cons (c : CycleSt) (i : Nat) (l : List Nat) :
    runWork c (i :: l) = runWork (stepIndex c i) l := rfl

theorem runWork_append (c : CycleSt) (l1 l2 : List Nat) :
    runWork c (l1 ++ l2) = runWork (runWork c l1) l2 := by
  simp [runWork, List.foldl_append]

theorem slabGet_runWork_none {c : CycleSt} {j : Nat} (l : List Nat)
    (h : slabGet c.slab j = none) :
    slabGet (runWork c l).slab j = none := by
  induction l generalizing c with
  | nil => exact h
  | cons i rest ih =>
    rw [runWork_cons]
    exact ih (slabGet_stepIndex_none h)

theorem length_slab_runWork (c : CycleSt) (l : List Nat) :
    (runWork c l).slab.length = c.slab.length := by
  induction l generalizing c with
  | nil => rfl
  | cons i rest ih =>
    rw [runWork_cons, ih, length_slab_stepIndex]

theorem capacity_active_runWork (c : CycleSt) (l : List Nat) :
    (runWork c l).active.capacity = c.active.capacity := by
  induction l generalizing c with
  | nil => rfl
  | cons i rest ih =>
    rw [runWork_cons, ih, capacity_active_stepIndex]

theorem test_active_runWork_mono {c : CycleSt} {j : Nat} (l : List Nat)
    (h : c.active.test j = true) : (runWork c l).active.test j = true := by
  induction l generalizing c with
  | nil => exact h
  | cons i rest ih =>
    rw [runWork_cons]
    exact ih (test_active_stepIndex_mono h)

theorem mem_advanced_runWork_mono {c : CycleSt} {j : Nat} (l : List Nat)
    (h : j ∈ c.advanced) : j ∈ (runWork c l).advanced := by
  induction l generalizing c with
  | nil => exact h
  | cons i rest ih =>
    rw [runWork_cons]
    exact ih (mem_advanced_stepIndex_mono h)

/-- Every index of the work list whose slot is occupied when the loop
starts gets advanced (lib.rs lines 242-263). -/
theorem mem_advanced_runWork {c : CycleSt} {i : Nat} {t : Task}
    {l : List Nat} (hl : i ∈ l) (hocc : slabGet c.slab i = some t) :
    i ∈ (runWork c l).advanced := by
  induction l generalizing c t with
  | nil => simp at hl
  | cons j rest ih =>
    rw [runWork_cons]
    by_cases hij : j = i
    · subst hij
      have hadv : j ∈ (stepIndex c j).advanced := by
        rw [stepIndex_of_occupied hocc]
        cases hf : t.fuel with
        | none => rw [advanceTask_fuel_none c j hf]; simp
        | some n =>
          cases n with
          | zero => rw [advanceTask_fuel_zero c j hf]; simp
          | succ m => rw [advanceTask_fuel_succ c j hf]; simp
      exact mem_advanced_runWork_mono rest hadv
    · have hrest : i ∈ rest := by
        rcases List.mem_cons.mp hl with h | h
        · exact absurd h.symm hij
        · exact h
      have hocc' : slabGet (stepIndex c j).slab i = some t := by
        rw [slabGet_stepIndex_other (fun hc => hij hc.symm)]
        exact hocc
      exact ih hrest hocc'

/-- Core readiness preservation: if every occupied slot lies below the
active set's capacity, then an index of the work list that is still
occupied after the loop has its wake bit set in the active set (its
pending advance invoked the wake handle, lib.rs lines 254-256 together
with §4.3's wake-handle contract). -/
theorem test_active_runWork_of_occupied {c : CycleSt} {i : Nat}
    {l : List Nat}
    (hCap : ∀ j t, slabGet c.slab j = some t → j < c.active.capacity)
    (hl : i ∈ l) {t' : Task}
    (hocc : slabGet (runWork c l).slab i = some t') :
    (runWork c l).active.test i = true := by
  induction l generalizing c with
  | nil => simp at hl
  | cons j rest ih =>
    rw [runWork_cons] at hocc ⊢
    have hCap' : ∀ k u, slabGet (stepIndex c j).slab k = some u →
        k < (stepIndex c j).active.capacity := by
      intro k u hk
      rw [capacity_active_stepIndex]
      by_cases hkj : k = j
      · subst hkj
        cases hg : slabGet c.slab k with
        | none =>
          rw [stepIndex_of_unoccupied hg] at hk
          rw [hg] at hk
          exact Option.noConfusion hk
        | some v => exact hCap k v hg
      · rw [slabGet_stepIndex_other hkj] at hk
        exact hCap k u hk
    by_cases hmem : i ∈ rest
    · exact ih hCap' hmem hocc
    · have hij : i = j := by
        rcases List.mem_cons.mp hl with h | h
        · exact h
        · exact absurd h hmem
      subst hij
      -- `i` is processed right now and survives the rest of the loop,
      -- so its advance was pending and set the wake bit.
      have hocc1 : ∃ u, slabGet (stepIndex c i).slab i = some u := by
        cases hg : slabGet (stepIndex c i).slab i with
        | none =>
          rw [slabGet_runWork_none rest hg] at hocc
          exact Option.noConfusion hocc
        | some u => exact ⟨u, rfl⟩
      rcases hocc1 with ⟨u, hu⟩
      have htest : (stepIndex c i).active.test i = true := by
        cases hg : slabGet c.slab i with
        | none =>
          rw [stepIndex_of_unoccupied hg] at hu
          rw [hg] at hu
          exact Option.noConfusion hu
        | some t =>
          rw [stepIndex_of_occupied hg] at hu ⊢
          have hlt : i < c.active.capacity := hCap i t hg
          cases hf : t.fuel with
          | none =>
            rw [advanceTask_fuel_none c i hf]
            exact WakeSet.test_set_self hlt
          | some n =>
            cases n with
            | zero =>
              rw [advanceTask_fuel_zero c i hf] at hu
              have hnone : slabGet (slabRemove c.slab i) i = none := by
                unfold slabRemove
                exact slabGet_slabSet_self none (slabGet_lt_length hg)
              simp only at hu
              rw [hnone] at hu
              exact Option.noConfusion hu
            | succ m =>
              rw [advanceTask_fuel_succ c i hf]
              exact WakeSet.test_set_self hlt
      exact test_active_runWork_mono rest htest

/-- The multiset of results plus outputs of live tasks. -/
def CycleSt.bag (c : CycleSt) : List Nat := c.results ++ slabOuts c.slab

theorem bag_stepIndex_perm (c : CycleSt) (i : Nat) :
    ((stepIndex c i).bag).Perm c.bag := by
  cases hg : slabGet c.slab i with
  | none =>
    rw [stepIndex_of_unoccupied hg]
  | some t =>
    rw [stepIndex_of_occupied hg]
    cases hf : t.fuel with
    | none =>
      rw [advanceTask_fuel_none c i hf]
      exact List.Perm.refl _
    | some n =>
      cases n with
      | zero =>
        rw [advanceTask_fuel_zero c i hf]
        show ((c.results ++ [t.out]) ++
          slabOuts (slabRemove c.slab i)).Perm (c.results ++ slabOuts c.slab)
        rw [List.append_assoc]
        exact List.Perm.append_left _ (slabOuts_slabRemove_perm hg).symm
      | succ m =>
        rw [advanceTask_fuel_succ c i hf]
        show (c.results ++
          slabOuts (slabSet c.slab i (some { t with fuel := some m }))).Perm
          (c.results ++ slabOuts c.slab)
        rw [slabOuts_slabSet_same_out ({ t with fuel := some m }) hg rfl]

theorem bag_runWork_perm (c : CycleSt) (l : List Nat) :
    ((runWork c l).bag).Perm c.bag := by
  induction l generalizing c with
  | nil => exact List.Perm.refl _
  | cons i rest ih =>
    rw [runWork_cons]
    exact (ih _).trans (bag_stepIndex_perm c i)

/-! ## Lemmas about `swapWaker`, `grownAlternate`, `workOf` -/

theorem swapWaker_slab (s : Unordered) (w : Nat) :
    (swapWaker s w).slab = s.slab := by
  unfold swapWaker
  split <;> rfl

theorem swapWaker_pollable (s : Unordered) (w : Nat) :
    (swapWaker s w).pollable = s.pollable := by
  unfold swapWaker
  split <;> rfl

theorem swapWaker_active (s : Unordered) (w : Nat) :
    (swapWaker s w).active = s.active := by
  unfold swapWaker
  split <;> rfl

theorem swapWaker_alternate (s : Unordered) (w : Nat) :
    (swapWaker s w).alternate = s.alternate := by
  unfold swapWaker
  split <;> rfl

theorem swapWaker_max_index (s : Unordered) (w : Nat) :
    (swapWaker s w).max_index = s.max_index := by
  unfold swapWaker
  split <;> rfl

theorem swapWaker_results (s : Unordered) (w : Nat) :
    (swapWaker s w).results = s.results := by
  unfold swapWaker
  split <;> rfl

theorem swapWaker_wakerId (s : Unordered) (w : Nat) :
    (swapWaker s w).wakerId = some w := by
  unfold swapWaker
  split
  · next h => exact h
  · rfl

theorem swapWaker_wakerSwaps (s : Unordered) (w : Nat) :
    (swapWaker s w).wakerSwaps =
      if s.wakerId = some w then s.wakerSwaps else s.wakerSwaps + 1 := by
  unfold swapWaker
  split <;> simp_all

theorem grownAlternate_capacity (s : Unordered) :
    s.max_index < (grownAlternate s).capacity := by
  unfold grownAlternate
  split
  · next h =>
    rw [WakeSet.capacity_reserve]
    have hm : Nat.max s.alternate.capacity (s.max_index + 1) =
        max s.alternate.capacity (s.max_index + 1) := rfl
    rw [hm]
    omega
  · next h => omega

theorem grownAlternate_swapWaker (s : Unordered) (w : Nat) :
    grownAlternate (swapWaker s w) = grownAlternate s := by
  unfold grownAlternate
  rw [swapWaker_alternate, swapWaker_max_index]

theorem workOf_swapWaker (s : Unordered) (w : Nat) :
    workOf (swapWaker s w) = workOf s := by
  unfold workOf
  rw [swapWaker_pollable, swapWaker_active]

theorem mem_workOf_of_pollable {s : Unordered} {i : Nat}
    (h : i ∈ s.pollable) : i ∈ workOf s :=
  List.mem_append_left _ (List.mem_reverse.mpr h)

theorem mem_workOf_of_test {s : Unordered} {i : Nat}
    (h : s.active.test i = true) : i ∈ workOf s :=
  List.mem_append_right _ (WakeSet.mem_drainList.mpr h)

/-! ## Branch equations for `poll_next` -/

/-- The loop state after a full poll cycle on `s` (waker handling left
aside, which does not touch the loop's data). -/
def cycleOf (s : Unordered) : CycleSt :=
  runWork ⟨s.slab, [], grownAlternate s, []⟩ (workOf s)

/-- The engine state after a cycle-running poll, with result queue `rs`. -/
def phaseState (s : Unordered) (w : Nat) (rs : List Nat) : Unordered :=
  { swapWaker s w with
    pollable := []
    slab := (cycleOf s).slab
    results := rs
    active := (cycleOf s).active
    alternate := s.active.cleared }

theorem pollNext_of_results_cons {s : Unordered} {v : Nat} {rest : List Nat}
    (w : Nat) (h : s.results = v :: rest) :
    pollNext s w =
      { res := .readySome v
        state := { s with results := rest }
        worklist := []
        advanced := []
        drainedCap := none } := by
  unfold pollNext
  rw [h]

theorem pollNext_of_empty {s : Unordered} (w : Nat)
    (hres : s.results = []) (hemp : slabIsEmpty s.slab = true) :
    pollNext s w =
      { res := .readyNone, state := s, worklist := [], advanced := [],
        drainedCap := none } := by
  unfold pollNext
  rw [hres]
  simp [hemp]

theorem pollNext_phase_nil {s : Unordered} (w : Nat)
    (hres : s.results = []) (hemp : slabIsEmpty s.slab = false)
    (hcr : (cycleOf s).results = []) :
    pollNext s w =
      { res := .pending
        state := phaseState s w []
        worklist := workOf s
        advanced := (cycleOf s).advanced
        drainedCap := some s.active.capacity } := by
  unfold pollNext
  rw [hres]
  simp only [hemp, Bool.false_eq_true, if_false]
  simp only [swapWaker_slab, swapWaker_active, grownAlternate_swapWaker,
    workOf_swapWaker]
  have hfold : runWork ⟨s.slab, [], grownAlternate s, []⟩ (workOf s) =
      cycleOf s := rfl
  rw [hfold, hcr]
  rfl

theorem pollNext_phase_cons {s : Unordered} {v : Nat} {rest : List Nat}
    (w : Nat) (hres : s.results = []) (hemp : slabIsEmpty s.slab = false)
    (hcr : (cycleOf s).results = v :: rest) :
    pollNext s w =
      { res := .readySome v
        state := phaseState s w rest
        worklist := workOf s
        advanced := (cycleOf s).advanced
        drainedCap := some s.active.capacity } := by
  unfold pollNext
  rw [hres]
  simp only [hemp, Bool.false_eq_true, if_false]
  simp only [swapWaker_slab, swapWaker_active, grownAlternate_swapWaker,
    workOf_swapWaker]
  have hfold : runWork ⟨s.slab, [], grownAlternate s, []⟩ (workOf s) =
      cycleOf s := rfl
  rw [hfold, hcr]
  rfl

/-! ## The engine invariant

Two facts maintained across pushes and polls: every occupied slot index
is bounded by `max_index` (lib.rs line 151), and every occupied slot is
scheduled — it sits in the pollable list or its wake bit is set in the
currently shared wake set (freshly pushed tasks are pollable; tasks that
returned pending re-registered through their wake handle). -/

/-- The engine invariant. -/
def EngInv (s : Unordered) : Prop :=
  (∀ i t, slabGet s.slab i = some t → i ≤ s.max_index) ∧
  (∀ i t, slabGet s.slab i = some t →
    i ∈ s.pollable ∨ s.active.test i = true)

theorem engInv_new : EngInv Unordered.new := by
  constructor <;> intro i t h <;> cases i <;>
    simp [Unordered.new, slabGet] at h

theorem occupied_of_runWork_occupied {c : CycleSt} {l : List Nat} {i : Nat}
    {t : Task} (h : slabGet (runWork c l).slab i = some t) :
    ∃ u, slabGet c.slab i = some u := by
  cases hg : slabGet c.slab i with
  | none =>
    rw [slabGet_runWork_none l hg] at h
    exact Option.noConfusion h
  | some u => exact ⟨u, rfl⟩

theorem engInv_push {s : Unordered} (hinv : EngInv s) (t : Task) :
    EngInv (push s t) := by
  obtain ⟨hmax, hready⟩ := hinv
  constructor
  · intro i u h
    show i ≤ Nat.max s.max_index (slabInsert s.slab t).2
    have hm : Nat.max s.max_index (slabInsert s.slab t).2 =
        max s.max_index (slabInsert s.slab t).2 := rfl
    by_cases hi : i = (slabInsert s.slab t).2
    · subst hi
      rw [hm]
      exact le_max_right _ _
    · have : slabGet s.slab i = some u := by
        rw [← slabGet_slabInsert_other s.slab t hi]
        exact h
      rw [hm]
      exact le_trans (hmax i u this) (le_max_left _ _)
  · intro i u h
    show i ∈ s.pollable ++ [(slabInsert s.slab t).2] ∨ s.active.test i = true
    by_cases hi : i = (slabInsert s.slab t).2
    · subst hi
      exact Or.inl (List.mem_append_right _ (List.mem_singleton.mpr rfl))
    · have : slabGet s.slab i = some u := by
        rw [← slabGet_slabInsert_other s.slab t hi]
        exact h
      rcases hready i u this with hp | ht
      · exact Or.inl (List.mem_append_left _ hp)
      · exact Or.inr ht

/-- Capacity hypothesis for the cycle of an engine satisfying the
invariant: every occupied slot lies below the freshly grown alternate
set's capacity. -/
theorem cycle_hCap {s : Unordered} (hinv : EngInv s) :
    ∀ j t, slabGet (⟨s.slab, [], grownAlternate s, []⟩ : CycleSt).slab j =
      some t →
      j < (⟨s.slab, [], grownAlternate s, []⟩ : CycleSt).active.capacity := by
  intro j t hj
  exact lt_of_le_of_lt (hinv.1 j t hj) (grownAlternate_capacity s)

/-- After a full cycle, every still-occupied slot has its wake bit set
in the new active set. -/
theorem cycleOf_test {s : Unordered} (hinv : EngInv s) {i : Nat} {t : Task}
    (h : slabGet (cycleOf s).slab i = some t) :
    (cycleOf s).active.test i = true := by
  obtain ⟨u, hu⟩ := occupied_of_runWork_occupied (c := ⟨s.slab, [], grownAlternate s, []⟩) h
  have hw : i ∈ workOf s := by
    rcases hinv.2 i u hu with hp | ht
    · exact mem_workOf_of_pollable hp
    · exact mem_workOf_of_test ht
  exact test_active_runWork_of_occupied (cycle_hCap hinv) hw h

theorem engInv_pollNext {s : Unordered} (hinv : EngInv s) (w : Nat) :
    EngInv (pollNext s w).state := by
  cases hres : s.results with
  | cons v rest =>
    rw [pollNext_of_results_cons w hres]
    exact ⟨hinv.1, hinv.2⟩
  | nil =>
    cases hemp : slabIsEmpty s.slab with
    | true =>
      rw [pollNext_of_empty w hres hemp]
      exact hinv
    | false =>
      have hmain : EngInv (phaseState s w ((cycleOf s).results)) := by
        constructor
        · intro i t h
          obtain ⟨u, hu⟩ := occupied_of_runWork_occupied
            (c := ⟨s.slab, [], grownAlternate s, []⟩) h
          show i ≤ (swapWaker s w).max_index
          rw [swapWaker_max_index]
          exact hinv.1 i u hu
        · intro i t h
          exact Or.inr (cycleOf_test hinv h)
      cases hcr : (cycleOf s).results with
      | nil =>
        rw [pollNext_phase_nil w hres hemp hcr]
        rw [hcr] at hmain
        exact hmain
      | cons v rest =>
        rw [pollNext_phase_cons w hres hemp hcr]
        rw [hcr] at hmain
        exact ⟨hmain.1, hmain.2⟩

/-! ## The driver invariant: conservation of tokens

Every token ever pushed is, at every moment, in exactly one of three
places: already delivered, queued in the result queue, or the output of
a live task in the slab.  Formally the concatenation of the three is a
permutation of `range nextToken`. -/

theorem runFrom_nil (d : Driver) : runFrom d [] = d := rfl

theorem runFrom_cons (d : Driver) (op : Op) (ops : List Op) :
    runFrom d (op :: ops) = runFrom (stepOp d op) ops := rfl

theorem runFrom_append (d : Driver) (l1 l2 : List Op) :
    runFrom d (l1 ++ l2) = runFrom (runFrom d l1) l2 := by
  simp [runFrom, List.foldl_append]

theorem stepOp_push (d : Driver) (f : Option Nat) :
    stepOp d (.push f) =
      { d with
        eng := push d.eng ⟨f, d.nextToken⟩
        nextToken := d.nextToken + 1 } := rfl

theorem stepOp_poll (d : Driver) (w : Nat) :
    stepOp d (.poll w) =
      { d with
        eng := (pollNext d.eng w).state
        delivered :=
          match (pollNext d.eng w).res with
          | .readySome v => d.delivered ++ [v]
          | _ => d.delivered
        log := d.log ++ [(pollNext d.eng w).res] } := rfl

theorem delivered_stepOp_mono {d : Driver} {v : Nat} (op : Op)
    (h : v ∈ d.delivered) : v ∈ (stepOp d op).delivered := by
  cases op with
  | push f => exact h
  | poll w =>
    rw [stepOp_poll]
    cases (pollNext d.eng w).res with
    | readySome u => exact List.mem_append_left _ h
    | readyNone => exact h
    | pending => exact h

theorem delivered_runFrom_mono {d : Driver} {v : Nat} (ops : List Op)
    (h : v ∈ d.delivered) : v ∈ (runFrom d ops).delivered := by
  induction ops generalizing d with
  | nil => exact h
  | cons op rest ih =>
    rw [runFrom_cons]
    exact ih (delivered_stepOp_mono op h)

/-- The driver invariant: the engine invariant plus token conservation. -/
def Inv (d : Driver) : Prop :=
  EngInv d.eng ∧
  (d.delivered ++ d.eng.results ++ slabOuts d.eng.slab).Perm
    (List.range d.nextToken)

theorem inv_init : Inv Driver.init := by
  constructor
  · exact engInv_new
  · simp [Driver.init, Unordered.new, slabOuts]

theorem inv_stepOp {d : Driver} (hinv : Inv d) (op : Op) :
    Inv (stepOp d op) := by
  obtain ⟨heng, hperm⟩ := hinv
  cases op with
  | push f =>
    rw [stepOp_push]
    refine ⟨engInv_push heng _, ?_⟩
    show (d.delivered ++ d.eng.results ++
      slabOuts (slabInsert d.eng.slab ⟨f, d.nextToken⟩).1).Perm
      (List.range (d.nextToken + 1))
    have houts : (slabOuts (slabInsert d.eng.slab ⟨f, d.nextToken⟩).1).Perm
        (slabOuts d.eng.slab ++ [d.nextToken]) :=
      slabOuts_slabInsert_perm d.eng.slab ⟨f, d.nextToken⟩
    refine (List.Perm.append_left _ houts).trans ?_
    rw [List.range_succ]
    have h2 : d.delivered ++ d.eng.results ++
        (slabOuts d.eng.slab ++ [d.nextToken]) =
        (d.delivered ++ d.eng.results ++ slabOuts d.eng.slab) ++
          [d.nextToken] := by
      simp [List.append_assoc]
    rw [h2]
    exact hperm.append_right _
  | poll w =>
    rw [stepOp_poll]
    cases hres : d.eng.results with
    | cons v rest =>
      rw [pollNext_of_results_cons w hres]
      refine ⟨⟨heng.1, heng.2⟩, ?_⟩
      show ((d.delivered ++ [v]) ++ rest ++ slabOuts d.eng.slab).Perm
        (List.range d.nextToken)
      rw [hres] at hperm
      have : (d.delivered ++ [v]) ++ rest = d.delivered ++ (v :: rest) := by
        simp
      rw [this]
      exact hperm
    | nil =>
      cases hemp : slabIsEmpty d.eng.slab with
      | true =>
        rw [pollNext_of_empty w hres hemp]
        exact ⟨heng, hperm⟩
      | false =>
        have hbag : ((cycleOf d.eng).results ++
            slabOuts (cycleOf d.eng).slab).Perm (slabOuts d.eng.slab) := by
          have := bag_runWork_perm
            (⟨d.eng.slab, [], grownAlternate d.eng, []⟩ : CycleSt)
            (workOf d.eng)
          simpa [CycleSt.bag, cycleOf] using this
        have hengP : ∀ rs, EngInv (phaseState d.eng w rs) := by
          intro rs
          have h2 := engInv_pollNext heng w
          cases hcr : (cycleOf d.eng).results with
          | nil =>
            rw [pollNext_phase_nil w hres hemp hcr] at h2
            exact ⟨h2.1, h2.2⟩
          | cons v rest =>
            rw [pollNext_phase_cons w hres hemp hcr] at h2
            exact ⟨h2.1, h2.2⟩
        rw [hres] at hperm
        cases hcr : (cycleOf d.eng).results with
        | nil =>
          rw [pollNext_phase_nil w hres hemp hcr]
          refine ⟨hengP _, ?_⟩
          show (d.delivered ++ [] ++ slabOuts (cycleOf d.eng).slab).Perm
            (List.range d.nextToken)
          rw [hcr] at hbag
          simp only [List.nil_append] at hbag
          have h1 : d.delivered ++ [] ++ slabOuts (cycleOf d.eng).slab =
              d.delivered ++ slabOuts (cycleOf d.eng).slab := by simp
          have h2 : d.delivered ++ [] ++ slabOuts d.eng.slab =
              d.delivered ++ slabOuts d.eng.slab := by simp
          rw [h1]
          rw [h2] at hperm
          exact (List.Perm.append_left _ hbag).trans hperm
        | cons v rest =>
          rw [pollNext_phase_cons w hres hemp hcr]
          refine ⟨hengP _, ?_⟩
          show ((d.delivered ++ [v]) ++ rest ++
            slabOuts (cycleOf d.eng).slab).Perm (List.range d.nextToken)
          rw [hcr] at hbag
          have h1 : (d.delivered ++ [v]) ++ rest ++
              slabOuts (cycleOf d.eng).slab =
              d.delivered ++ ((v :: rest) ++ slabOuts (cycleOf d.eng).slab) := by
            simp
          have h2 : d.delivered ++ [] ++ slabOuts d.eng.slab =
              d.delivered ++ slabOuts d.eng.slab := by simp
          rw [h1]
          rw [h2] at hperm
          exact (List.Perm.append_left _ hbag).trans hperm

theorem inv_runFrom {d : Driver} (hinv : Inv d) (ops : List Op) :
    Inv (runFrom d ops) := by
  induction ops generalizing d with
  | nil => exact hinv
  | cons op rest ih =>
    rw [runFrom_cons]
    exact ih (inv_stepOp hinv op)

theorem inv_runOps (ops : List Op) : Inv (runOps ops) :=
  inv_runFrom inv_init ops

/-- No duplicates are ever delivered. -/
theorem delivered_nodup {d : Driver} (hinv : Inv d) : d.delivered.Nodup := by
  have h1 : (d.delivered ++ d.eng.results ++ slabOuts d.eng.slab).Nodup :=
    hinv.2.nodup_iff.mpr (List.nodup_range _)
  have h2 : d.delivered.Sublist
      (d.delivered ++ d.eng.results ++ slabOuts d.eng.slab) := by
    rw [List.append_assoc]
    exact List.sublist_append_left _ _
  exact h1.sublist h2

/-! ## Liveness: a live finite-fuel token is eventually delivered

A token is *live* while it sits in the result queue or belongs to a
still-stored task with finite fuel.  Liveness is proved by a measure
argument: every poll call strictly decreases twice the total remaining
fuel plus the queue length, as long as the token is undelivered. -/

/-- The token is queued, or is the output of a stored finite-fuel task. -/
def liveIn (tok : Nat) (rs : List Nat) (s : Slab) : Prop :=
  tok ∈ rs ∨ ∃ i t, slabGet s i = some t ∧ t.out = tok ∧ t.fuel ≠ none

/-- The token is delivered or still live inside the engine. -/
def finitelyLive (tok : Nat) (d : Driver) : Prop :=
  tok ∈ d.delivered ∨ liveIn tok d.eng.results d.eng.slab

theorem liveIn_stepIndex {tok : Nat} {c : CycleSt} (i : Nat)
    (h : liveIn tok c.results c.slab) :
    liveIn tok (stepIndex c i).results (stepIndex c i).slab := by
  rcases h with hq | ⟨j, t, hj, hout, hfin⟩
  · left
    cases hg : slabGet c.slab i with
    | none => rw [stepIndex_of_unoccupied hg]; exact hq
    | some t =>
      rw [stepIndex_of_occupied hg]
      cases hf : t.fuel with
      | none => rw [advanceTask_fuel_none c i hf]; exact hq
      | some n =>
        cases n with
        | zero =>
          rw [advanceTask_fuel_zero c i hf]
          exact List.mem_append_left _ hq
        | succ m => rw [advanceTask_fuel_succ c i hf]; exact hq
  · by_cases hij : j = i
    · subst hij
      rw [stepIndex_of_occupied hj]
      cases hf : t.fuel with
      | none => exact absurd hf hfin
      | some n =>
        cases n with
        | zero =>
          rw [advanceTask_fuel_zero c j hf]
          left
          rw [hout]
          exact List.mem_append_right _ (List.mem_singleton.mpr rfl)
        | succ m =>
          rw [advanceTask_fuel_succ c j hf]
          right
          refine ⟨j, { t with fuel := some m }, ?_, hout, by simp⟩
          exact slabGet_slabSet_self _ (slabGet_lt_length hj)
    · rcases hq : slabGet c.slab i with _ | u
      · rw [stepIndex_of_unoccupied hq]
        exact Or.inr ⟨j, t, hj, hout, hfin⟩
      · right
        refine ⟨j, t, ?_, hout, hfin⟩
        rw [slabGet_stepIndex_other hij]
        exact hj

theorem liveIn_runWork {tok : Nat} {c : CycleSt} (l : List Nat)
    (h : liveIn tok c.results c.slab) :
    liveIn tok (runWork c l).results (runWork c l).slab := by
  induction l generalizing c with
  | nil => exact h
  | cons i rest ih =>
    rw [runWork_cons]
    exact ih (liveIn_stepIndex i h)

theorem finitelyLive_stepOp {tok : Nat} {d : Driver}
    (h : finitelyLive tok d) (op : Op) : finitelyLive tok (stepOp d op) := by
  cases op with
  | push f =>
    rcases h with hd | hq | ⟨j, t, hj, hout, hfin⟩
    · exact Or.inl hd
    · exact Or.inr (Or.inl hq)
    · right; right
      refine ⟨j, t, ?_, hout, hfin⟩
      rw [stepOp_push]
      show slabGet (slabInsert d.eng.slab ⟨f, d.nextToken⟩).1 j = some t
      have hne : j ≠ (slabInsert d.eng.slab ⟨f, d.nextToken⟩).2 := by
        intro hc
        rw [hc, slabGet_free_slabInsert] at hj
        exact Option.noConfusion hj
      rw [slabGet_slabInsert_other d.eng.slab _ hne]
      exact hj
  | poll w =>
    rw [stepOp_poll]
    cases hres : d.eng.results with
    | cons v rest =>
      rw [pollNext_of_results_cons w hres]
      rcases h with hd | hq | ⟨j, t, hj, hout, hfin⟩
      · exact Or.inl (List.mem_append_left _ hd)
      · rw [hres] at hq
        rcases List.mem_cons.mp hq with hv | hrest
        · subst hv
          exact Or.inl (List.mem_append_right _ (List.mem_singleton.mpr rfl))
        · exact Or.inr (Or.inl hrest)
      · exact Or.inr (Or.inr ⟨j, t, hj, hout, hfin⟩)
    | nil =>
      cases hemp : slabIsEmpty d.eng.slab with
      | true =>
        rw [pollNext_of_empty w hres hemp]
        rcases h with hd | hq | ⟨j, t, hj, hout, hfin⟩
        · exact Or.inl hd
        · exact Or.inr (Or.inl hq)
        · exact Or.inr (Or.inr ⟨j, t, hj, hout, hfin⟩)
      | false =>
        rcases h with hd | hlive
        · -- Already delivered: delivery lists only grow.
          cases hcr : (cycleOf d.eng).results with
          | nil =>
            rw [pollNext_phase_nil w hres hemp hcr]
            exact Or.inl hd
          | cons v rest =>
            rw [pollNext_phase_cons w hres hemp hcr]
            exact Or.inl (List.mem_append_left _ hd)
        · have hc0 : liveIn tok
              ((⟨d.eng.slab, [], grownAlternate d.eng, []⟩ : CycleSt).results)
              ((⟨d.eng.slab, [], grownAlternate d.eng, []⟩ : CycleSt).slab) := by
            rcases hlive with hq | ⟨j, t, hj, hout, hfin⟩
            · rw [hres] at hq
              simp at hq
            · exact Or.inr ⟨j, t, hj, hout, hfin⟩
          have hc1 : liveIn tok (cycleOf d.eng).results
              (cycleOf d.eng).slab := liveIn_runWork (workOf d.eng) hc0
          cases hcr : (cycleOf d.eng).results with
          | nil =>
            rw [pollNext_phase_nil w hres hemp hcr]
            rw [hcr] at hc1
            exact Or.inr hc1
          | cons v rest =>
            rw [pollNext_phase_cons w hres hemp hcr]
            rw [hcr] at hc1
            rcases hc1 with hq | ⟨j, t, hj, hout, hfin⟩
            · rcases List.mem_cons.mp hq with hv | hrest
              · subst hv
                exact Or.inl (List.mem_append_right _
                  (List.mem_singleton.mpr rfl))
              · exact Or.inr (Or.inl hrest)
            · exact Or.inr (Or.inr ⟨j, t, hj, hout, hfin⟩)

/-- Remaining work of one task: `n + 1` for fuel `some n`, `0` for a
never-completing task. -/
def taskWeight (t : Task) : Nat :=
  match t.fuel with
  | some n => n + 1
  | none => 0

/-- Remaining work of one slot. -/
def fuelWeight : Option Task → Nat
  | some t => taskWeight t
  | none => 0

/-- Total remaining work of the slab. -/
def fuelSum (s : Slab) : Nat := (s.map fuelWeight).sum

/-- The poll-progress measure of a loop state. -/
def cmeasure (c : CycleSt) : Nat := 2 * fuelSum c.slab + c.results.length

/-- The poll-progress measure of a driver state. -/
def dmeasure (d : Driver) : Nat :=
  2 * fuelSum d.eng.slab + d.eng.results.length

theorem fuelWeight_le_fuelSum {s : Slab} {i : Nat} {t : Task}
    (h : slabGet s i = some t) : fuelWeight (some t) ≤ fuelSum s := by
  induction s generalizing i with
  | nil => simp [slabGet] at h
  | cons x xs ih =>
    cases i with
    | zero =>
      simp only [slabGet] at h
      subst h
      simp [fuelSum]
    | succ n =>
      simp only [slabGet] at h
      have := ih h
      unfold fuelSum at this
      simp only [fuelSum, List.map_cons, List.sum_cons]
      omega

theorem fuelSum_slabSet {s : Slab} {i : Nat} {t : Task} (v : Option Task)
    (h : slabGet s i = some t) :
    fuelSum (slabSet s i v) + fuelWeight (some t) =
      fuelSum s + fuelWeight v := by
  induction s generalizing i with
  | nil => simp [slabGet] at h
  | cons x xs ih =>
    cases i with
    | zero =>
      simp only [slabGet] at h
      subst h
      simp only [slabSet, fuelSum, List.map_cons, List.sum_cons]
      omega
    | succ n =>
      simp only [slabGet] at h
      have := ih h
      unfold fuelSum at this
      simp only [slabSet, fuelSum, List.map_cons, List.sum_cons]
      omega

theorem cmeasure_stepIndex_le (c : CycleSt) (i : Nat) :
    cmeasure (stepIndex c i) ≤ cmeasure c := by
  cases hg : slabGet c.slab i with
  | none => rw [stepIndex_of_unoccupied hg]
  | some t =>
    rw [stepIndex_of_occupied hg]
    cases hf : t.fuel with
    | none =>
      rw [advanceTask_fuel_none c i hf]
      exact le_refl _
    | some n =>
      cases n with
      | zero =>
        rw [advanceTask_fuel_zero c i hf]
        have hs := fuelSum_slabSet (t := t) none hg
        have hw : fuelWeight (some t) = 1 := by
          show taskWeight t = 1
          unfold taskWeight
          rw [hf]
        show 2 * fuelSum (slabRemove c.slab i) +
          (c.results ++ [t.out]).length ≤ 2 * fuelSum c.slab +
          c.results.length
        unfold slabRemove
        simp only [List.length_append, List.length_cons, List.length_nil]
        have hwn : fuelWeight (none : Option Task) = 0 := rfl
        omega
      | succ m =>
        rw [advanceTask_fuel_succ c i hf]
        have hs := fuelSum_slabSet (t := t)
          (some { t with fuel := some m }) hg
        have hw : fuelWeight (some t) = m + 2 := by
          show taskWeight t = m + 2
          unfold taskWeight
          rw [hf]
        have hw2 : fuelWeight (some { t with fuel := some m }) = m + 1 := rfl
        show 2 * fuelSum (slabSet c.slab i (some { t with fuel := some m })) +
          c.results.length ≤ 2 * fuelSum c.slab + c.results.length
        omega

theorem cmeasure_stepIndex_lt {c : CycleSt} {i : Nat} {t : Task}
    (hg : slabGet c.slab i = some t) (hfin : t.fuel ≠ none) :
    cmeasure (stepIndex c i) < cmeasure c := by
  rw [stepIndex_of_occupied hg]
  cases hf : t.fuel with
  | none => exact absurd hf hfin
  | some n =>
    cases n with
    | zero =>
      rw [advanceTask_fuel_zero c i hf]
      have hs := fuelSum_slabSet (t := t) none hg
      have hw : fuelWeight (some t) = 1 := by
          show taskWeight t = 1
          unfold taskWeight
          rw [hf]
      show 2 * fuelSum (slabRemove c.slab i) +
        (c.results ++ [t.out]).length < 2 * fuelSum c.slab +
        c.results.length
      unfold slabRemove
      simp only [List.length_append, List.length_cons, List.length_nil]
      have hwn : fuelWeight (none : Option Task) = 0 := rfl
      omega
    | succ m =>
      rw [advanceTask_fuel_succ c i hf]
      have hs := fuelSum_slabSet (t := t)
        (some { t with fuel := some m }) hg
      have hw : fuelWeight (some t) = m + 2 := by
        show taskWeight t = m + 2
        unfold taskWeight
        rw [hf]
      have hw2 : fuelWeight (some { t with fuel := some m }) = m + 1 := rfl
      show 2 * fuelSum (slabSet c.slab i (some { t with fuel := some m })) +
        c.results.length < 2 * fuelSum c.slab + c.results.length
      omega

theorem cmeasure_runWork_le (c : CycleSt) (l : List Nat) :
    cmeasure (runWork c l) ≤ cmeasure c := by
  induction l generalizing c with
  | nil => exact le_refl _
  | cons i rest ih =>
    rw [runWork_cons]
    exact le_trans (ih _) (cmeasure_stepIndex_le c i)

theorem cmeasure_runWork_lt {c : CycleSt} {l : List Nat} {i : Nat} {t : Task}
    (hl : i ∈ l) (hg : slabGet c.slab i = some t) (hfin : t.fuel ≠ none) :
    cmeasure (runWork c l) < cmeasure c := by
  induction l generalizing c t with
  | nil => simp at hl
  | cons j rest ih =>
    rw [runWork_cons]
    by_cases hij : j = i
    · subst hij
      exact lt_of_le_of_lt (cmeasure_runWork_le _ rest)
        (cmeasure_stepIndex_lt hg hfin)
    · have hrest : i ∈ rest := by
        rcases List.mem_cons.mp hl with h | h
        · exact absurd h.symm hij
        · exact h
      have hg' : slabGet (stepIndex c j).slab i = some t := by
        rw [slabGet_stepIndex_other (fun hc => hij hc.symm)]
        exact hg
      exact lt_of_lt_of_le (ih hrest hg' hfin) (cmeasure_stepIndex_le c j)

/-- When the measure is zero, a live token has been delivered. -/
theorem delivered_of_dmeasure_zero {tok : Nat} {d : Driver}
    (hlive : finitelyLive tok d) (hm : dmeasure d = 0) :
    tok ∈ d.delivered := by
  rcases hlive with hd | hq | ⟨j, t, hj, _, hfin⟩
  · exact hd
  · exfalso
    unfold dmeasure at hm
    have : d.eng.results.length = 0 := by omega
    rw [List.length_eq_zero.mp this] at hq
    simp at hq
  · exfalso
    have h1 : fuelWeight (some t) ≤ fuelSum d.eng.slab :=
      fuelWeight_le_fuelSum hj
    have h2 : 1 ≤ fuelWeight (some t) := by
      cases hf : t.fuel with
      | none => exact absurd hf hfin
      | some n =>
        have hw : fuelWeight (some t) = n + 1 := by
          show taskWeight t = n + 1
          unfold taskWeight
          rw [hf]
        omega
    unfold dmeasure at hm
    omega

/-- A poll call strictly decreases the measure while a live token is
undelivered. -/
theorem dmeasure_poll_lt {tok : Nat} {d : Driver} (w : Nat)
    (hinv : Inv d) (hlive : finitelyLive tok d)
    (hnd : tok ∉ d.delivered) :
    dmeasure (stepOp d (.poll w)) < dmeasure d := by
  rw [stepOp_poll]
  cases hres : d.eng.results with
  | cons v rest =>
    rw [pollNext_of_results_cons w hres]
    show 2 * fuelSum d.eng.slab + rest.length <
      2 * fuelSum d.eng.slab + d.eng.results.length
    rw [hres]
    simp
  | nil =>
    rcases hlive with hd | hq | ⟨j, t, hj, hout, hfin⟩
    · exact absurd hd hnd
    · rw [hres] at hq
      simp at hq
    · have hemp : slabIsEmpty d.eng.slab = false :=
        slabIsEmpty_false_of_occupied hj
      have hwork : j ∈ workOf d.eng := by
        rcases hinv.1.2 j t hj with hp | ht
        · exact mem_workOf_of_pollable hp
        · exact mem_workOf_of_test ht
      have hlt : cmeasure (cycleOf d.eng) <
          cmeasure (⟨d.eng.slab, [], grownAlternate d.eng, []⟩ : CycleSt) :=
        cmeasure_runWork_lt hwork hj hfin
      have hc0 : cmeasure
          (⟨d.eng.slab, [], grownAlternate d.eng, []⟩ : CycleSt) =
          2 * fuelSum d.eng.slab := by
        simp [cmeasure]
      cases hcr : (cycleOf d.eng).results with
      | nil =>
        rw [pollNext_phase_nil w hres hemp hcr]
        show 2 * fuelSum (cycleOf d.eng).slab + ([] : List Nat).length <
          2 * fuelSum d.eng.slab + d.eng.results.length
        have : cmeasure (cycleOf d.eng) =
            2 * fuelSum (cycleOf d.eng).slab := by
          simp [cmeasure, hcr]
        rw [hres]
        simp only [List.length_nil]
        omega
      | cons v rest =>
        rw [pollNext_phase_cons w hres hemp hcr]
        show 2 * fuelSum (cycleOf d.eng).slab + rest.length <
          2 * fuelSum d.eng.slab + d.eng.results.length
        have : cmeasure (cycleOf d.eng) =
            2 * fuelSum (cycleOf d.eng).slab + rest.length + 1 := by
          simp only [cmeasure, hcr, List.length_cons]
          omega
        rw [hres]
        simp only [List.length_nil]
        omega

/-- Repeatedly polling delivers every live finite-fuel token within
`dmeasure` many calls. -/
theorem delivered_after_polls (N : Nat) :
    ∀ d : Driver, ∀ tok w : Nat, Inv d → finitelyLive tok d →
      dmeasure d ≤ N →
      tok ∈ (runFrom d (List.replicate N (.poll w))).delivered := by
  induction N with
  | zero =>
    intro d tok w hinv hlive hm
    exact delivered_of_dmeasure_zero hlive (Nat.le_zero.mp hm)
  | succ n ih =>
    intro d tok w hinv hlive hm
    by_cases hd : tok ∈ d.delivered
    · exact delivered_runFrom_mono _ hd
    · rw [List.replicate_succ, runFrom_cons]
      have hlt := dmeasure_poll_lt w hinv hlive hd
      exact ih (stepOp d (.poll w)) tok w
        (inv_stepOp hinv _) (finitelyLive_stepOp hlive _) (by omega)

/-! ## Token bookkeeping for operation sequences -/

theorem nextToken_stepOp (d : Driver) (op : Op) :
    (stepOp d op).nextToken =
      d.nextToken + (if isPush op then 1 else 0) := by
  cases op with
  | push f => rfl
  | poll w => rfl

theorem nextToken_runFrom (d : Driver) (ops : List Op) :
    (runFrom d ops).nextToken = d.nextToken + ops.countP isPush := by
  induction ops generalizing d with
  | nil => simp [runFrom_nil]
  | cons op rest ih =>
    rw [runFrom_cons, ih, nextToken_stepOp, List.countP_cons]
    omega

/-- A freshly pushed finite-fuel task makes its token live. -/
theorem finitelyLive_push (d : Driver) (f : Nat) :
    finitelyLive d.nextToken (stepOp d (.push (some f))) := by
  right; right
  refine ⟨(slabInsert d.eng.slab ⟨some f, d.nextToken⟩).2,
    ⟨some f, d.nextToken⟩, ?_, rfl, by simp⟩
  exact slabGet_slabInsert_self _ _

theorem finitelyLive_runFrom {tok : Nat} {d : Driver} (ops : List Op)
    (h : finitelyLive tok d) : finitelyLive tok (runFrom d ops) := by
  induction ops generalizing d with
  | nil => exact h
  | cons op rest ih =>
    rw [runFrom_cons]
    exact ih (finitelyLive_stepOp h op)

theorem runOps_append (l1 l2 : List Op) :
    runOps (l1 ++ l2) = runFrom (runOps l1) l2 :=
  runFrom_append Driver.init l1 l2

theorem ops_decomp {ops : List Op} {p : Nat} {op : Op}
    (h : ops[p]? = some op) :
    ops = ops.take p ++ op :: ops.drop (p + 1) := by
  have hlt : p < ops.length := by
    by_contra hc
    rw [List.getElem?_eq_none (by omega)] at h
    exact Option.noConfusion h
  have h1 := List.take_append_drop p ops
  have h2 := List.drop_eq_getElem_cons hlt
  have h3 : ops[p] = op := by
    have h4 := List.getElem?_eq_getElem hlt
    rw [h4] at h
    exact Option.some.inj h
  rw [h3] at h2
  conv_lhs => rw [← h1]
  rw [h2]

/-! ## Claim C1 -/

/-- C1: for every finite sequence of push operations interleaved with
poll invocations, each pushed task whose advance eventually returns
completed (here: each task pushed with finite fuel, all of which
eventually complete) has its output returned by some poll exactly once.
Honouring the wake handle by continuing to poll (`N` further poll calls
suffice) delivers the output (count exactly one, so no drop), and under
any continuation of the run whatsoever the output is never returned by
two polls (count at most one, so no duplicate). -/
theorem c1_exactly_once_delivery (ops : List Op) (p f w : Nat)
    (hp : ops[p]? = some (Op.push (some f))) :
    (∃ N, ((runOps (ops ++ List.replicate N (Op.poll w))).delivered.count
      (tokenAt ops p)) = 1) ∧
    ∀ more : List Op,
      ((runOps (ops ++ more)).delivered.count (tokenAt ops p)) ≤ 1 := by
  have hdecomp : ops = ops.take p ++ Op.push (some f) :: ops.drop (p + 1) :=
    ops_decomp hp
  have htok : (runOps (ops.take p)).nextToken = tokenAt ops p := by
    show (runFrom Driver.init (ops.take p)).nextToken = tokenAt ops p
    rw [nextToken_runFrom]
    show 0 + (ops.take p).countP isPush = tokenAt ops p
    rw [Nat.zero_add]
    rfl
  have hlive : finitelyLive (tokenAt ops p) (runOps ops) := by
    conv_rhs => rw [hdecomp]
    rw [runOps_append, runFrom_cons]
    refine finitelyLive_runFrom _ ?_
    rw [← htok]
    exact finitelyLive_push _ f
  constructor
  · refine ⟨dmeasure (runOps ops), ?_⟩
    have hmem := delivered_after_polls (dmeasure (runOps ops)) (runOps ops)
      (tokenAt ops p) w (inv_runOps ops) hlive (le_refl _)
    rw [runOps_append]
    have hinv2 : Inv (runFrom (runOps ops)
        (List.replicate (dmeasure (runOps ops)) (Op.poll w))) :=
      inv_runFrom (inv_runOps ops) _
    exact List.count_eq_one_of_mem (delivered_nodup hinv2) hmem
  · intro more
    exact List.nodup_iff_count_le_one.mp
      (delivered_nodup (inv_runOps (ops ++ more))) _

/-- Witness for C1: a single immediately-completing pushed task is
delivered exactly once. -/
theorem c1_exactly_once_delivery_witness :
    (∃ N, ((runOps ([Op.push (some 0)] ++
      List.replicate N (Op.poll 0))).delivered.count
      (tokenAt [Op.push (some 0)] 0)) = 1) ∧
    ∀ more : List Op,
      ((runOps ([Op.push (some 0)] ++ more)).delivered.count
        (tokenAt [Op.push (some 0)] 0)) ≤ 1 :=
  c1_exactly_once_delivery [Op.push (some 0)] 0 0 0 (by rfl)

/-! ## The double-buffer handoff protocol (§4.3), for claim C2

Modelled from the spec: `wake_set.rs` is not among the sources.  The
protocol of §4.3 is modelled explicitly: two physical buffers, an
atomically swapped active-buffer reference, and per-cycle wake traffic
split into the writes whose single-bit set lands before the swap
(targeting the buffer that was active until the swap; §4.3 step 4 makes
the poll thread wait for them before draining) and the writes landing
after the swap (targeting the freshly published buffer). -/

/-- The two wake-tracking buffers plus the active-buffer reference.
Each buffer holds the set of indices currently marked in it. -/
structure DoubleBuf where
  bufA : List Nat
  bufB : List Nat
  activeIsA : Bool
  deriving Repr, DecidableEq

namespace DoubleBuf

/-- A wake handle's single-bit insertion: mark index `i` in whichever
buffer the active reference currently designates (§4.3). -/
def set (d : DoubleBuf) (i : Nat) : DoubleBuf :=
  if d.activeIsA then { d with bufA := i :: d.bufA }
  else { d with bufB := i :: d.bufB }

/-- The atomic swap of the active-buffer reference (§4.3 step 3). -/
def swap (d : DoubleBuf) : DoubleBuf := { d with activeIsA := !d.activeIsA }

/-- The buffer currently designated active (Shared). -/
def active (d : DoubleBuf) : List Nat :=
  if d.activeIsA then d.bufA else d.bufB

/-- The buffer not designated active (held Exclusive by the engine). -/
def inactive (d : DoubleBuf) : List Nat :=
  if d.activeIsA then d.bufB else d.bufA

/-- Clear the exclusive buffer after draining it (§4.3 step 5). -/
def clearInactive (d : DoubleBuf) : DoubleBuf :=
  if d.activeIsA then { d with bufB := [] } else { d with bufA := [] }

end DoubleBuf

/-- One poll cycle's wake traffic: the indices whose writes complete
before the swap and those landing after it. -/
structure CycleEvents where
  pre : List Nat
  post : List Nat
  deriving Repr, DecidableEq

/-- One cycle of the §4.3 protocol: pre-swap writes land in the current
active buffer; the reference is swapped; post-swap writes land in the
newly published buffer; the old buffer — now exclusive, with all
in-flight writers waited out — is drained and cleared, becoming the next
cycle's alternate. -/
def runCycle (d : DoubleBuf) (ev : CycleEvents) : DoubleBuf × List Nat :=
  let d1 := ev.pre.foldl DoubleBuf.set d
  let d2 := d1.swap
  let d3 := ev.post.foldl DoubleBuf.set d2
  (d3.clearInactive, d3.inactive)

/-- The drain list (work-list contribution) of every cycle in a run. -/
def runCycles (d : DoubleBuf) : List CycleEvents → List (List Nat)
  | [] => []
  | ev :: rest =>
    (runCycle d ev).2 :: runCycles (runCycle d ev).1 rest

theorem DoubleBuf.set_active (d : DoubleBuf) (i : Nat) :
    (d.set i).active = i :: d.active := by
  unfold set active
  cases d.activeIsA <;> simp

theorem DoubleBuf.set_inactive (d : DoubleBuf) (i : Nat) :
    (d.set i).inactive = d.inactive := by
  unfold set inactive
  cases d.activeIsA <;> simp

theorem DoubleBuf.swap_active (d : DoubleBuf) :
    d.swap.active = d.inactive := by
  unfold swap active inactive
  cases d.activeIsA <;> simp

theorem DoubleBuf.swap_inactive (d : DoubleBuf) :
    d.swap.inactive = d.active := by
  unfold swap active inactive
  cases d.activeIsA <;> simp

theorem DoubleBuf.clearInactive_active (d : DoubleBuf) :
    d.clearInactive.active = d.active := by
  unfold clearInactive active
  cases d.activeIsA <;> simp

theorem foldl_set_inactive (l : List Nat) (d : DoubleBuf) :
    (l.foldl DoubleBuf.set d).inactive = d.inactive := by
  induction l generalizing d with
  | nil => rfl
  | cons x xs ih =>
    rw [List.foldl_cons, ih, DoubleBuf.set_inactive]

theorem mem_foldl_set_active_mono (l : List Nat) {d : DoubleBuf} {i : Nat}
    (h : i ∈ d.active) : i ∈ (l.foldl DoubleBuf.set d).active := by
  induction l generalizing d with
  | nil => exact h
  | cons x xs ih =>
    rw [List.foldl_cons]
    refine ih ?_
    rw [DoubleBuf.set_active]
    exact List.mem_cons_of_mem _ h

theorem mem_foldl_set_active_of_mem {l : List Nat} (d : DoubleBuf) {i : Nat}
    (h : i ∈ l) : i ∈ (l.foldl DoubleBuf.set d).active := by
  induction l generalizing d with
  | nil => simp at h
  | cons x xs ih =>
    rw [List.foldl_cons]
    rcases List.mem_cons.mp h with hx | hxs
    · subst hx
      refine mem_foldl_set_active_mono xs ?_
      rw [DoubleBuf.set_active]
      exact List.mem_cons_self _ _
    · exact ih _ hxs

/-- A pre-swap notification is in this cycle's drain list. -/
theorem mem_runCycle_drained_of_pre {d : DoubleBuf} {ev : CycleEvents}
    {i : Nat} (h : i ∈ ev.pre) : i ∈ (runCycle d ev).2 := by
  show i ∈ (((ev.post.foldl DoubleBuf.set
    ((ev.pre.foldl DoubleBuf.set d).swap))).inactive)
  rw [foldl_set_inactive, DoubleBuf.swap_inactive]
  exact mem_foldl_set_active_of_mem d h

/-- Anything already in the active buffer at cycle start is drained this
cycle. -/
theorem mem_runCycle_drained_of_active {d : DoubleBuf} {ev : CycleEvents}
    {i : Nat} (h : i ∈ d.active) : i ∈ (runCycle d ev).2 := by
  show i ∈ (((ev.post.foldl DoubleBuf.set
    ((ev.pre.foldl DoubleBuf.set d).swap))).inactive)
  rw [foldl_set_inactive, DoubleBuf.swap_inactive]
  exact mem_foldl_set_active_mono _ h

/-- A post-swap notification is in the active buffer after the cycle. -/
theorem mem_runCycle_active_of_post {d : DoubleBuf} {ev : CycleEvents}
    {i : Nat} (h : i ∈ ev.post) : i ∈ ((runCycle d ev).1).active := by
  show i ∈ ((ev.post.foldl DoubleBuf.set
    ((ev.pre.foldl DoubleBuf.set d).swap)).clearInactive).active
  rw [DoubleBuf.clearInactive_active]
  exact mem_foldl_set_active_of_mem _ h

theorem runCycles_cons (d : DoubleBuf) (ev : CycleEvents)
    (rest : List CycleEvents) :
    runCycles d (ev :: rest) =
      (runCycle d ev).2 :: runCycles (runCycle d ev).1 rest := rfl

/-- A single-bit insertion lands in exactly one of the two buffers. -/
theorem set_exactly_one_buffer (db : DoubleBuf) (j : Nat) :
    ((db.set j).bufA = j :: db.bufA ∧ (db.set j).bufB = db.bufB) ∨
    ((db.set j).bufA = db.bufA ∧ (db.set j).bufB = j :: db.bufB) := by
  unfold DoubleBuf.set
  cases h : db.activeIsA with
  | true => exact Or.inl ⟨by simp, by simp⟩
  | false => exact Or.inr ⟨by simp, by simp⟩

/-- C2: every wake notification, whenever it lands relative to the
cycle's atomic active-buffer swap, is recorded in exactly one of the two
wake-tracking buffers and its index appears in a drain list (the
cycle's work-list contribution) no later than the cycle after the one
during which it was set: a pre-swap write is drained in its own cycle, a
post-swap write in the next cycle that runs. -/
theorem c2_no_notification_lost (d0 : DoubleBuf) (cycles : List CycleEvents)
    (c : Nat) (ev : CycleEvents) (i : Nat)
    (hc : cycles[c]? = some ev) :
    (i ∈ ev.pre →
      ∃ dr, (runCycles d0 cycles)[c]? = some dr ∧ i ∈ dr) ∧
    (i ∈ ev.post → ∀ ev2, cycles[c + 1]? = some ev2 →
      ∃ dr, (runCycles d0 cycles)[c + 1]? = some dr ∧ i ∈ dr) ∧
    (∀ db : DoubleBuf, ∀ j : Nat,
      ((db.set j).bufA = j :: db.bufA ∧ (db.set j).bufB = db.bufB) ∨
      ((db.set j).bufA = db.bufA ∧ (db.set j).bufB = j :: db.bufB)) := by
  refine ?_
  induction cycles generalizing d0 c with
  | nil => simp at hc
  | cons ev0 rest ih =>
    cases c with
    | zero =>
      rw [List.getElem?_cons_zero] at hc
      have hev : ev0 = ev := Option.some.inj hc
      subst hev
      refine ⟨?_, ?_, set_exactly_one_buffer⟩
      · intro hpre
        refine ⟨(runCycle d0 ev0).2, ?_, mem_runCycle_drained_of_pre hpre⟩
        rw [runCycles_cons, List.getElem?_cons_zero]
      · intro hpost ev2 hc2
        rw [List.getElem?_cons_succ] at hc2
        cases rest with
        | nil => simp at hc2
        | cons ev2h rest2 =>
          refine ⟨(runCycle (runCycle d0 ev0).1 ev2h).2, ?_, ?_⟩
          · rw [runCycles_cons, List.getElem?_cons_succ, runCycles_cons,
              List.getElem?_cons_zero]
          · exact mem_runCycle_drained_of_active
              (mem_runCycle_active_of_post hpost)
    | succ c2 =>
      rw [List.getElem?_cons_succ] at hc
      have := ih (runCycle d0 ev0).1 c2 hc
      refine ⟨?_, ?_, set_exactly_one_buffer⟩
      · intro hpre
        obtain ⟨dr, hdr, hmem⟩ := this.1 hpre
        exact ⟨dr, by rw [runCycles_cons, List.getElem?_cons_succ]; exact hdr,
          hmem⟩
      · intro hpost ev2 hc2
        rw [List.getElem?_cons_succ] at hc2
        obtain ⟨dr, hdr, hmem⟩ := this.2.1 hpost ev2 hc2
        exact ⟨dr, by rw [runCycles_cons, List.getElem?_cons_succ]; exact hdr,
          hmem⟩

/-- Witness for C2: in a two-cycle run, a pre-swap notification for
index 3 is drained in its own cycle and a post-swap notification for
index 4 in the following cycle. -/
theorem c2_no_notification_lost_witness :
    (∃ dr, (runCycles ⟨[], [], true⟩ [⟨[3], [4]⟩, ⟨[], []⟩])[0]? = some dr ∧
      3 ∈ dr) ∧
    (∃ dr, (runCycles ⟨[], [], true⟩ [⟨[3], [4]⟩, ⟨[], []⟩])[1]? = some dr ∧
      4 ∈ dr) := by
  have h3 := c2_no_notification_lost ⟨[], [], true⟩ [⟨[3], [4]⟩, ⟨[], []⟩]
    0 ⟨[3], [4]⟩ 3 (by decide)
  have h4 := c2_no_notification_lost ⟨[], [], true⟩ [⟨[3], [4]⟩, ⟨[], []⟩]
    0 ⟨[3], [4]⟩ 4 (by decide)
  exact ⟨h3.1 (by decide), h4.2.1 (by decide) ⟨[], []⟩ (by decide)⟩

/-! ## Claims C3 - C10 -/

/-- C3: a poll returns end-of-stream exactly when, at call time, both
the result queue and the store are empty; a non-empty result queue takes
precedence and yields a queued output; the first poll on a fresh engine
returns end-of-stream. -/
theorem c3_end_of_stream_iff (s : Unordered) (w : Nat) :
    ((pollNext s w).res = .readyNone ↔
      s.results = [] ∧ slabIsEmpty s.slab = true) ∧
    (∀ v rest, s.results = v :: rest →
      (pollNext s w).res = .readySome v) ∧
    (pollNext Unordered.new w).res = .readyNone := by
  refine ⟨⟨?_, ?_⟩, ?_, ?_⟩
  · intro h
    cases hres : s.results with
    | cons v rest =>
      rw [pollNext_of_results_cons w hres] at h
      exact PollRes.noConfusion h
    | nil =>
      cases hemp : slabIsEmpty s.slab with
      | true => exact ⟨rfl, rfl⟩
      | false =>
        exfalso
        cases hcr : (cycleOf s).results with
        | nil =>
          rw [pollNext_phase_nil w hres hemp hcr] at h
          exact PollRes.noConfusion h
        | cons v rest =>
          rw [pollNext_phase_cons w hres hemp hcr] at h
          exact PollRes.noConfusion h
  · rintro ⟨hres, hemp⟩
    rw [pollNext_of_empty w hres hemp]
  · intro v rest hres
    rw [pollNext_of_results_cons w hres]
  · rw [pollNext_of_empty w
      (show Unordered.new.results = [] from rfl)
      (show slabIsEmpty Unordered.new.slab = true from rfl)]

/-- Witness for C3: a queued output takes precedence over the cycle, and
a fresh engine's first poll is end-of-stream. -/
theorem c3_end_of_stream_iff_witness :
    (pollNext (runOps [Op.push (some 0), Op.push (some 0),
      Op.poll 0]).eng 0).res = PollRes.readySome 0 ∧
    (pollNext Unordered.new 0).res = PollRes.readyNone :=
  ⟨(c3_end_of_stream_iff
      (runOps [Op.push (some 0), Op.push (some 0), Op.poll 0]).eng 0).2.1
      0 [] (by decide),
   (c3_end_of_stream_iff Unordered.new 0).2.2⟩

/-- C4 counterexample: push one immediately completing task; its output
is delivered by the first poll, the second poll returns end-of-stream —
and so does the third: a second end-of-stream occurs, refuting "no later
poll invocation ... ever again yields ... a second end-of-stream". -/
theorem c4_counterexample :
    (runOps [Op.push (some 0), Op.poll 0, Op.poll 0, Op.poll 0]).log =
      [PollRes.readySome 0, PollRes.readyNone, PollRes.readyNone] ∧
    ((runOps [Op.push (some 0), Op.poll 0, Op.poll 0,
      Op.poll 0]).log.count PollRes.readyNone) = 2 := by
  decide

/-- C4 (amended): once every pushed task has completed and every output
has been delivered (empty queue, empty store), every subsequent poll —
not just the next one — returns end-of-stream, and no subsequent poll
ever again yields a completed output; the stream is not fused. -/
theorem c4_end_of_stream_stable (d : Driver) (w n : Nat)
    (h1 : d.eng.results = []) (h2 : slabIsEmpty d.eng.slab = true) :
    (runFrom d (List.replicate n (Op.poll w))).log =
      d.log ++ List.replicate n PollRes.readyNone := by
  induction n generalizing d with
  | zero => simp [runFrom_nil]
  | succ m ih =>
    rw [List.replicate_succ, runFrom_cons]
    have hstep : stepOp d (Op.poll w) =
        { d with log := d.log ++ [PollRes.readyNone] } := by
      rw [stepOp_poll, pollNext_of_empty w h1 h2]
    rw [hstep,
      ih { d with log := d.log ++ [PollRes.readyNone] } h1 h2,
      List.replicate_succ]
    simp

/-- Witness for C4: after one task is pushed, completed and delivered,
two further polls both log end-of-stream. -/
theorem c4_end_of_stream_stable_witness :
    (runFrom (runOps [Op.push (some 0), Op.poll 0])
      (List.replicate 2 (Op.poll 0))).log =
      (runOps [Op.push (some 0), Op.poll 0]).log ++
        List.replicate 2 PollRes.readyNone :=
  c4_end_of_stream_stable (runOps [Op.push (some 0), Op.poll 0]) 0 2
    (by decide) (by decide)

/-- C5: whenever advancing the task at an occupied slot returns
completed, the engine enqueues its output at the back of the result
queue and removes the slot in the same cycle step; the freed index is
returned by a later insert once all lower indices are occupied. -/
theorem c5_completion_enqueue_remove (c : CycleSt) (i : Nat) (t : Task)
    (hocc : slabGet c.slab i = some t) (hdone : t.fuel = some 0) :
    (stepIndex c i).results = c.results ++ [t.out] ∧
    slabGet (stepIndex c i).slab i = none ∧
    ∀ u : Task, (∀ j, j < i → slabGet (stepIndex c i).slab j ≠ none) →
      (slabInsert (stepIndex c i).slab u).2 = i := by
  rw [stepIndex_of_occupied hocc, advanceTask_fuel_zero c i hdone]
  have hfree : slabGet (slabRemove c.slab i) i = none := by
    unfold slabRemove
    exact slabGet_slabSet_self none (slabGet_lt_length hocc)
  exact ⟨rfl, hfree, fun u hfull => slabInsert_least u hfull hfree⟩

/-- Witness for C5: completing the only stored task enqueues output 5,
frees slot 0, and a subsequent insert reuses index 0. -/
theorem c5_completion_enqueue_remove_witness :
    (stepIndex ⟨[some ⟨some 0, 5⟩], [], WakeSet.new, []⟩ 0).results = [5] ∧
    slabGet (stepIndex ⟨[some ⟨some 0, 5⟩], [], WakeSet.new, []⟩ 0).slab 0 =
      none ∧
    (slabInsert (stepIndex ⟨[some ⟨some 0, 5⟩], [], WakeSet.new, []⟩ 0).slab
      ⟨none, 9⟩).2 = 0 := by
  have h := c5_completion_enqueue_remove
    ⟨[some ⟨some 0, 5⟩], [], WakeSet.new, []⟩ 0 ⟨some 0, 5⟩ rfl rfl
  exact ⟨h.1, h.2.1, h.2.2 ⟨none, 9⟩ (by intro j hj; omega)⟩

/-- C6: every task accepted by push is stored in the slab under its
assigned index, that index joins the pollable list, and the next poll
that reaches the work-list phase (entered with an empty result queue)
advances the task at least once.  `push` itself returns only the updated
engine — no value is handed back to the caller. -/
theorem c6_push_gets_polled (s : Unordered) (t : Task) (w : Nat) :
    slabGet (push s t).slab (pushIdx s t) = some t ∧
    pushIdx s t ∈ (push s t).pollable ∧
    (s.results = [] →
      pushIdx s t ∈ (pollNext (push s t) w).advanced) := by
  have hocc : slabGet (push s t).slab (pushIdx s t) = some t :=
    slabGet_slabInsert_self s.slab t
  have hpoll : pushIdx s t ∈ (push s t).pollable :=
    List.mem_append_right _ (List.mem_singleton.mpr rfl)
  refine ⟨hocc, hpoll, ?_⟩
  intro hres
  have hresq : (push s t).results = [] := hres
  have hemp : slabIsEmpty (push s t).slab = false :=
    slabIsEmpty_false_of_occupied hocc
  have hwork : pushIdx s t ∈ workOf (push s t) :=
    mem_workOf_of_pollable hpoll
  have hadv : pushIdx s t ∈ (cycleOf (push s t)).advanced :=
    mem_advanced_runWork hwork hocc
  cases hcr : (cycleOf (push s t)).results with
  | nil => rw [pollNext_phase_nil w hresq hemp hcr]; exact hadv
  | cons v rest => rw [pollNext_phase_cons w hresq hemp hcr]; exact hadv

/-- Witness for C6: a task pushed onto the fresh engine lands in slot 0,
is pollable, and is advanced by the first poll. -/
theorem c6_push_gets_polled_witness :
    slabGet (push Unordered.new ⟨some 0, 0⟩).slab
      (pushIdx Unordered.new ⟨some 0, 0⟩) = some ⟨some 0, 0⟩ ∧
    pushIdx Unordered.new ⟨some 0, 0⟩ ∈
      (push Unordered.new ⟨some 0, 0⟩).pollable ∧
    pushIdx Unordered.new ⟨some 0, 0⟩ ∈
      (pollNext (push Unordered.new ⟨some 0, 0⟩) 0).advanced := by
  have h := c6_push_gets_polled Unordered.new ⟨some 0, 0⟩ 0
  exact ⟨h.1, h.2.1, h.2.2 rfl⟩

/-- C7: an index of the work list whose slot is unoccupied at lookup
time is skipped silently: running the loop over a work list containing
it yields exactly the same loop state — slab, queue, wake bits and
advance log — as running it over the work list without it. -/
theorem c7_stale_index_skipped (c : CycleSt) (l1 l2 : List Nat) (i : Nat)
    (h : slabGet c.slab i = none) :
    runWork c (l1 ++ i :: l2) = runWork c (l1 ++ l2) := by
  rw [runWork_append, runWork_append, runWork_cons,
    stepIndex_of_unoccupied (slabGet_runWork_none l1 h)]

/-- Witness for C7: a stale index (5, beyond the store) in the middle of
the work list leaves the cycle unchanged. -/
theorem c7_stale_index_skipped_witness :
    runWork ⟨[some ⟨some 1, 3⟩], [], WakeSet.new, []⟩ ([0] ++ 5 :: [0]) =
      runWork ⟨[some ⟨some 1, 3⟩], [], WakeSet.new, []⟩ ([0] ++ [0]) :=
  c7_stale_index_skipped ⟨[some ⟨some 1, 3⟩], [], WakeSet.new, []⟩
    [0] [0] 5 rfl

/-- C8: a poll that reaches the waker-registration step (queue empty,
store non-empty) stores the caller's waker, and replaces the previous
one — bumping the replacement counter — exactly when the caller's waker
differs by identity; and a second consecutive poll with the identical
waker never bumps the counter, whichever branch it takes. -/
theorem c8_waker_replaced_iff (s : Unordered) (w : Nat)
    (h1 : s.results = []) (h2 : slabIsEmpty s.slab = false) :
    (pollNext s w).state.wakerId = some w ∧
    ((pollNext s w).state.wakerSwaps = s.wakerSwaps + 1 ↔
      s.wakerId ≠ some w) ∧
    ((pollNext s w).state.wakerSwaps = s.wakerSwaps ↔
      s.wakerId = some w) ∧
    (pollNext (pollNext s w).state w).state.wakerSwaps =
      (pollNext s w).state.wakerSwaps := by
  have key : (pollNext s w).state.wakerId = some w ∧
      (pollNext s w).state.wakerSwaps =
        (if s.wakerId = some w then s.wakerSwaps else s.wakerSwaps + 1) := by
    cases hcr : (cycleOf s).results with
    | nil =>
      rw [pollNext_phase_nil w h1 h2 hcr]
      exact ⟨swapWaker_wakerId s w, swapWaker_wakerSwaps s w⟩
    | cons v rest =>
      rw [pollNext_phase_cons w h1 h2 hcr]
      exact ⟨swapWaker_wakerId s w, swapWaker_wakerSwaps s w⟩
  obtain ⟨hid, hswaps⟩ := key
  refine ⟨hid, ?_, ?_, ?_⟩
  · rw [hswaps]
    by_cases hc : s.wakerId = some w <;> simp [hc]
  · rw [hswaps]
    by_cases hc : s.wakerId = some w <;> simp [hc]
  · set s2 := (pollNext s w).state with hs2
    cases hres2 : s2.results with
    | cons v rest => rw [pollNext_of_results_cons w hres2]
    | nil =>
      cases hemp2 : slabIsEmpty s2.slab with
      | true => rw [pollNext_of_empty w hres2 hemp2]
      | false =>
        have hsw : swapWaker s2 w = s2 := by
          unfold swapWaker
          rw [hid]
          simp
        cases hcr2 : (cycleOf s2).results with
        | nil =>
          rw [pollNext_phase_nil w hres2 hemp2 hcr2]
          show (swapWaker s2 w).wakerSwaps = s2.wakerSwaps
          rw [hsw]
        | cons v rest =>
          rw [pollNext_phase_cons w hres2 hemp2 hcr2]
          show (swapWaker s2 w).wakerSwaps = s2.wakerSwaps
          rw [hsw]

/-- Witness for C8 on a one-task engine: the first poll stores waker 0
(one replacement from the fresh state), and a second poll with the same
waker performs no replacement. -/
theorem c8_waker_replaced_iff_witness :
    (pollNext (push Unordered.new ⟨some 3, 0⟩) 0).state.wakerId = some 0 ∧
    ((pollNext (push Unordered.new ⟨some 3, 0⟩) 0).state.wakerSwaps =
      (push Unordered.new ⟨some 3, 0⟩).wakerSwaps + 1 ↔
      (push Unordered.new ⟨some 3, 0⟩).wakerId ≠ some 0) ∧
    ((pollNext (push Unordered.new ⟨some 3, 0⟩) 0).state.wakerSwaps =
      (push Unordered.new ⟨some 3, 0⟩).wakerSwaps ↔
      (push Unordered.new ⟨some 3, 0⟩).wakerId = some 0) ∧
    (pollNext (pollNext (push Unordered.new ⟨some 3, 0⟩) 0).state
      0).state.wakerSwaps =
      (pollNext (push Unordered.new ⟨some 3, 0⟩) 0).state.wakerSwaps :=
  c8_waker_replaced_iff (push Unordered.new ⟨some 3, 0⟩) 0
    (by decide) (by decide)

/-- C9 counterexample: run push, poll, push, push — `max_index` is now 2,
but the buffer drained by the next poll was published (and sized) when
`max_index` was 0, with capacity 1: at drain time its capacity does not
exceed every slot index ever used, refuting the claim's "capacity at
least max_index + 1" at drain time. -/
theorem c9_counterexample :
    (pollNext (runOps [Op.push (some 5), Op.poll 0, Op.push (some 5),
      Op.push (some 5)]).eng 0).drainedCap = some 1 ∧
    (runOps [Op.push (some 5), Op.poll 0, Op.push (some 5),
      Op.push (some 5)]).eng.max_index = 2 ∧
    ¬ (2 : Nat) < 1 := by
  decide

/-- C9 (amended): in every cycle-running poll the engine grows the
alternate buffer, while still exclusively held, exactly when its
capacity is not strictly greater than `max_index`, so that the buffer's
capacity exceeds `max_index` at publication time and still does when the
cycle ends; the buffer drained by a cycle is only guaranteed capacity
beyond the `max_index` current when it was published, which may be less
than the current `max_index` if pushes happened since. -/
theorem c9_grow_before_publish (s : Unordered) (w : Nat)
    (h1 : s.results = []) (h2 : slabIsEmpty s.slab = false) :
    (grownAlternate s).capacity =
      (if s.alternate.capacity ≤ s.max_index then s.max_index + 1
        else s.alternate.capacity) ∧
    s.max_index < (grownAlternate s).capacity ∧
    (pollNext s w).state.active.capacity = (grownAlternate s).capacity ∧
    s.max_index < (pollNext s w).state.active.capacity := by
  have hcapeq : (grownAlternate s).capacity =
      (if s.alternate.capacity ≤ s.max_index then s.max_index + 1
        else s.alternate.capacity) := by
    unfold grownAlternate
    split
    · next h =>
      rw [WakeSet.capacity_reserve]
      have hm : Nat.max s.alternate.capacity (s.max_index + 1) =
          max s.alternate.capacity (s.max_index + 1) := rfl
      rw [hm, max_eq_right (by omega)]
    · rfl
  have hstate : (pollNext s w).state.active.capacity =
      (grownAlternate s).capacity := by
    cases hcr : (cycleOf s).results with
    | nil =>
      rw [pollNext_phase_nil w h1 h2 hcr]
      exact capacity_active_runWork _ _
    | cons v rest =>
      rw [pollNext_phase_cons w h1 h2 hcr]
      exact capacity_active_runWork _ _
  refine ⟨hcapeq, grownAlternate_capacity s, hstate, ?_⟩
  rw [hstate]
  exact grownAlternate_capacity s

/-- Witness for C9 (amended) on a one-task engine. -/
theorem c9_grow_before_publish_witness :
    (grownAlternate (push Unordered.new ⟨some 3, 0⟩)).capacity =
      (if (push Unordered.new ⟨some 3, 0⟩).alternate.capacity ≤
          (push Unordered.new ⟨some 3, 0⟩).max_index then
        (push Unordered.new ⟨some 3, 0⟩).max_index + 1
        else (push Unordered.new ⟨some 3, 0⟩).alternate.capacity) ∧
    (push Unordered.new ⟨some 3, 0⟩).max_index <
      (grownAlternate (push Unordered.new ⟨some 3, 0⟩)).capacity ∧
    (pollNext (push Unordered.new ⟨some 3, 0⟩) 0).state.active.capacity =
      (grownAlternate (push Unordered.new ⟨some 3, 0⟩)).capacity ∧
    (push Unordered.new ⟨some 3, 0⟩).max_index <
      (pollNext (push Unordered.new ⟨some 3, 0⟩) 0).state.active.capacity :=
  c9_grow_before_publish (push Unordered.new ⟨some 3, 0⟩) 0
    (by decide) (by decide)

/-- C10: a cycle-running poll processes exactly the pollable indices in
reverse push order (the vector is popped from the back) followed by the
indices drained from the reclaimed wake set; the pollable list is empty
when the cycle finishes; and each push appends its index at the back of
the pollable list. -/
theorem c10_worklist_order (s : Unordered) (w : Nat) (t : Task)
    (h1 : s.results = []) (h2 : slabIsEmpty s.slab = false) :
    (pollNext s w).worklist =
      s.pollable.reverse ++ s.active.drainList ∧
    (pollNext s w).state.pollable = [] ∧
    (push s t).pollable = s.pollable ++ [pushIdx s t] := by
  cases hcr : (cycleOf s).results with
  | nil =>
    rw [pollNext_phase_nil w h1 h2 hcr]
    exact ⟨rfl, rfl, rfl⟩
  | cons v rest =>
    rw [pollNext_phase_cons w h1 h2 hcr]
    exact ⟨rfl, rfl, rfl⟩

/-- Witness for C10 on an engine with two pushed tasks: the work list is
the two indices in reverse push order. -/
theorem c10_worklist_order_witness :
    (pollNext (push (push Unordered.new ⟨some 3, 0⟩) ⟨some 3, 1⟩)
      0).worklist =
      (push (push Unordered.new ⟨some 3, 0⟩) ⟨some 3, 1⟩).pollable.reverse ++
        (push (push Unordered.new ⟨some 3, 0⟩) ⟨some 3, 1⟩).active.drainList ∧
    (pollNext (push (push Unordered.new ⟨some 3, 0⟩) ⟨some 3, 1⟩)
      0).state.pollable = [] ∧
    (push (push (push Unordered.new ⟨some 3, 0⟩) ⟨some 3, 1⟩)
      ⟨some 3, 2⟩).pollable =
      (push (push Unordered.new ⟨some 3, 0⟩) ⟨some 3, 1⟩).pollable ++
        [pushIdx (push (push Unordered.new ⟨some 3, 0⟩) ⟨some 3, 1⟩)
          ⟨some 3, 2⟩] :=
  c10_worklist_order (push (push Unordered.new ⟨some 3, 0⟩) ⟨some 3, 1⟩)
    0 ⟨some 3, 2⟩ (by decide) (by decide)

end Unicycle
